import Mathlib

/-!
Verification development for the `pathtyped` resource-management library.

The Python source is embedded shallowly:

* `Entry` models the tree built from `EntryDict` / `EntryList` / leaf values.
  A leaf is either a `pathlib.Path` (represented by its `.parts` list, the
  only attribute the library ever reads from it), an opaque non-container
  object (represented by its runtime type name, the only attribute the
  library reads from such leaves), or Python `None`.
* Fallible Python code (IndexError, AssertionError, re-raised loader
  exceptions) is modelled with `Except Exc`.
* The MD5 checksum of `ResourceManager.__init__` is modelled by the exact
  byte stream fed to `hashlib.md5` (the concatenation of the strings yielded
  by `yield_consistent_hashables`); two fingerprints are equal exactly when
  those streams are equal, i.e. MD5 is treated as injective.
* The `middleware` decorator's generator-based traversal (`_walk_stems`)
  recurses into nodes *replaced* by the rule, so it has no structural
  termination measure (a rule can make Python loop forever).  The model
  threads an explicit recursion-depth `fuel`; exhausted fuel leaves the
  subtree unprocessed, and every terminating Python run is reproduced by any
  sufficiently large fuel.
-/

/-- Python logging levels used by the library. -/
inductive Level where
  | debug
  | info
  | warning
  | error
  | critical
deriving DecidableEq, Repr

/-- A leaf value of the tree: a `pathlib.Path` (its `.parts`) or an opaque
non-container object (its runtime type name). -/
inductive Leafval where
  | pathv (parts : List String)
  | obj (tyName : String)
deriving DecidableEq, Repr

/-- Python exceptions the modelled code can raise. `raised` carries a
user-loader exception (identified by its message). -/
inductive Exc where
  | indexError
  | assertionError
  | valueError
  | fuelOut
  | raised (msg : String)
deriving DecidableEq, Repr

/-- The log calls the modelled code paths can emit, one constructor per call
site, tagged with the data interpolated into the message. -/
inductive LogMsg where
  /-- `r.debug(f"to_property_name: Checking {loc}")` -/
  | checkingDebug (loc : String)
  /-- `r.debug(f"Renamed {loc}.{k} -> {loc}.{res}")` -/
  | renamedDebug (loc old new : String)
  /-- `r.warning(f"Property name starts with a digit at {repr(loc)}. ...")` -/
  | digitWarn (loc : String)
  /-- `r.error(f"Failed to load {repr(o)}: {e}")` inside `fallback` -/
  | loadFail (o : Leafval) (e : Exc)
  /-- `self.critical(f"Error while loading object at location {location}; ...")` -/
  | loadCritical (loc : String) (o : Leafval)
  /-- `self.warning(f"No loader found for object at location: {location}; ...")` -/
  | noLoaderWarn (loc : String) (o : Leafval)
deriving DecidableEq, Repr

/-- The logging level of each call site. -/
def LogMsg.level : LogMsg → Level
  | .checkingDebug _ => .debug
  | .renamedDebug _ _ _ => .debug
  | .digitWarn _ => .warning
  | .loadFail _ _ => .error
  | .loadCritical _ _ => .critical
  | .noLoaderWarn _ _ => .warning

/-- The tree model: `EntryDict` (insertion-ordered keyed mapping),
`EntryList`, leaf values, and Python `None`. -/
inductive Entry where
  | entryDict (es : List (String × Entry))
  | entryList (es : List Entry)
  | leaf (v : Leafval)
  | pynone
deriving Repr

/-- `is_entry_node`: only `EntryDict` and `EntryList` are traversable nodes. -/
def Entry.isNode : Entry → Bool
  | .entryDict _ => true
  | .entryList _ => true
  | _ => false

mutual

/-- `ResourceManager.yield_consistent_hashables`: dict nodes yield all keys
first and then recurse into the values in order; list nodes recurse into
elements; a `Path` yields its `.parts`; any other value yields its runtime
type name (`None` yields `"NoneType"`). -/
def consistentHashables : Entry → List String
  | .entryDict es => es.map Prod.fst ++ hashPairs es
  | .entryList es => hashElems es
  | .leaf (.pathv parts) => parts
  | .leaf (.obj tyName) => [tyName]
  | .pynone => ["NoneType"]

/-- Hashables of the values of a dict node, in order. -/
def hashPairs : List (String × Entry) → List String
  | [] => []
  | (_, v) :: rest => consistentHashables v ++ hashPairs rest

/-- Hashables of the elements of a list node, in order. -/
def hashElems : List Entry → List String
  | [] => []
  | v :: rest => consistentHashables v ++ hashElems rest

end

/-- The byte stream `ResourceManager.__init__` feeds to `hashlib.md5`:
the concatenation of the consistent hashables.  Fingerprints are compared
through this stream (MD5 modelled as injective). -/
def md5Input (t : Entry) : List Char :=
  (consistentHashables t).flatMap String.toList

/-! ## Python `dict` primitives

A Python `dict` is an insertion-ordered association list with unique keys.
Assignment `d[k] = v` keeps the position of an existing key and appends a
fresh key at the end; `d.pop(k)` removes the entry. -/

/-- Keys of an association list. -/
def keysOf (es : List (String × Entry)) : List String :=
  es.map Prod.fst

/-- Membership test `k in d`. -/
def hasKey (es : List (String × Entry)) (k : String) : Bool :=
  es.any fun p => p.1 = k

/-- Python `d[k] = v`: overwrite in place if present, else append. -/
def insertOverwrite (es : List (String × Entry)) (k : String) (v : Entry) :
    List (String × Entry) :=
  if hasKey es k then es.map (fun p => if p.1 = k then (k, v) else p)
  else es ++ [(k, v)]

/-- Python `d.pop(k)` (the removal part). -/
def removeKey (es : List (String × Entry)) (k : String) : List (String × Entry) :=
  es.filter fun p => p.1 ≠ k

/-- Python `d.get(k)` / `d[k]` lookup (first, and with unique keys only,
occurrence). -/
def lookupKey (es : List (String × Entry)) (k : String) : Option Entry :=
  (es.find? fun p => p.1 = k).map Prod.snd

/-- Python `{f(k): v for k, v in es}`: sequential assignments into a fresh
dict. -/
def dictComprehension (ps : List (String × Entry)) : List (String × Entry) :=
  ps.foldl (fun acc p => insertOverwrite acc p.1 p.2) []

/-! ## Name Normalizer (`_normalize_property_name`, `to_python_property_name`) -/

/-- A character allowed by the regex class `[a-zA-Z0-9_]`. -/
def isIdentChar (c : Char) : Bool :=
  (c ≥ 'a' && c ≤ 'z') || (c ≥ 'A' && c ≤ 'Z') || (c ≥ '0' && c ≤ '9') || c = '_'

/-- `re.sub(r"^_+", "", name)`. -/
def stripLeadingUnderscores (name : String) : String :=
  String.mk (name.toList.dropWhile fun c => c = '_')

/-- `re.sub(r"[^a-zA-Z0-9_]", "_", s)`. -/
def replaceBadChars (s : String) : String :=
  String.mk (s.toList.map fun c => if isIdentChar c then c else '_')

/-- `_normalize_property_name`: strip leading underscores, replace characters
outside `[a-zA-Z0-9_]` with `_`, then test `s[0].isdigit()` — an `IndexError`
if the result is empty — and prefix `index_` (with a warning) if the first
character is a digit. -/
def normalizePropertyName (loc name : String) :
    Except Exc (String × List LogMsg) :=
  match (replaceBadChars (stripLeadingUnderscores name)).toList with
  | [] => .error .indexError
  | c :: _ =>
    if c.isDigit then
      .ok ("index_" ++ replaceBadChars (stripLeadingUnderscores name), [.digitWarn loc])
    else .ok (replaceBadChars (stripLeadingUnderscores name), [])

/-! ## Middleware machinery (`_walk_stems` + the `middleware` decorator)

`middleware(func)` wraps the tree in a fake head `{"<root>": tree}` and
iterates `_walk_stems`.  The generator yields each node *before* recursing
into its children, and the wrapper replaces every node-valued child of the
yielded node by the rule's result (when not `None`) before the generator
resumes — so the resumed recursion descends into the *replaced* children.
Because a rule may return an arbitrary node, the traversal has no structural
termination measure; the model burns one unit of `fuel` per descent and
leaves a subtree unprocessed when fuel runs out (every terminating Python
run is reproduced by all sufficiently large fuels).

A rule `(self, location, tree) -> Optional[EntryTree]` is modelled by
`RuleE`; rules that mutate their argument in place and return `None` are
modelled as returning the mutated node. -/

abbrev RuleE : Type :=
  String → Entry → Except Exc (Option Entry × List LogMsg)

/-- The wrapper body for one yielded node: apply the rule to each node-valued
entry of a dict, in order, substituting replacements. -/
def mwStepPairs (rule : RuleE) (loc : String) :
    List (String × Entry) → Except Exc (List (String × Entry) × List LogMsg)
  | [] => .ok ([], [])
  | (k, v) :: rest =>
    if v.isNode then
      match rule (loc ++ "." ++ k) v with
      | .error e => .error e
      | .ok (r, logs) =>
        match mwStepPairs rule loc rest with
        | .error e => .error e
        | .ok (rest1, logs1) => .ok ((k, r.getD v) :: rest1, logs ++ logs1)
    else
      match mwStepPairs rule loc rest with
      | .error e => .error e
      | .ok (rest1, logs1) => .ok ((k, v) :: rest1, logs1)

/-- The wrapper body for one yielded list node (`property` is the index and
the rule location joins it with a dot). -/
def mwStepElems (rule : RuleE) (loc : String) (i : Nat) :
    List Entry → Except Exc (List Entry × List LogMsg)
  | [] => .ok ([], [])
  | v :: rest =>
    if v.isNode then
      match rule (loc ++ "." ++ toString i) v with
      | .error e => .error e
      | .ok (r, logs) =>
        match mwStepElems rule loc (i + 1) rest with
        | .error e => .error e
        | .ok (rest1, logs1) => .ok (r.getD v :: rest1, logs ++ logs1)
    else
      match mwStepElems rule loc (i + 1) rest with
      | .error e => .error e
      | .ok (rest1, logs1) => .ok (v :: rest1, logs1)

/-- Resumption of the generator over a dict's items: recurse with `walk`
(the traversal one fuel level down) into each node-valued child
(`location.k`). -/
def mwDescendPairs (walk : String → Entry → Except Exc (Entry × List LogMsg))
    (loc : String) :
    List (String × Entry) → Except Exc (List (String × Entry) × List LogMsg)
  | [] => .ok ([], [])
  | (k, v) :: rest =>
    if v.isNode then
      match walk (loc ++ "." ++ k) v with
      | .error e => .error e
      | .ok (v1, logs) =>
        match mwDescendPairs walk loc rest with
        | .error e => .error e
        | .ok (rest1, logs1) => .ok ((k, v1) :: rest1, logs ++ logs1)
    else
      match mwDescendPairs walk loc rest with
      | .error e => .error e
      | .ok (rest1, logs1) => .ok ((k, v) :: rest1, logs1)

/-- Resumption of the generator over a list's elements (`location[i]`). -/
def mwDescendElems (walk : String → Entry → Except Exc (Entry × List LogMsg))
    (loc : String) (i : Nat) :
    List Entry → Except Exc (List Entry × List LogMsg)
  | [] => .ok ([], [])
  | v :: rest =>
    if v.isNode then
      match walk (loc ++ "[" ++ toString i ++ "]") v with
      | .error e => .error e
      | .ok (v1, logs) =>
        match mwDescendElems walk loc (i + 1) rest with
        | .error e => .error e
        | .ok (rest1, logs1) => .ok (v1 :: rest1, logs ++ logs1)
    else
      match mwDescendElems walk loc (i + 1) rest with
      | .error e => .error e
      | .ok (rest1, logs1) => .ok (v :: rest1, logs1)

/-- `_walk_stems` consumed by the wrapper, from one yielded node downwards:
first the wrapper replaces the node's node-valued children (`mwStepPairs` /
`mwStepElems`), then the generator recurses into each (replaced) child, one
fuel unit deeper. -/
def mwWalkE (rule : RuleE) : Nat → String → Entry → Except Exc (Entry × List LogMsg)
  | 0, _, t => .ok (t, [])
  | n + 1, loc, .entryDict es =>
    match mwStepPairs rule loc es with
    | .error e => .error e
    | .ok (es1, logs1) =>
      match mwDescendPairs (mwWalkE rule n) loc es1 with
      | .error e => .error e
      | .ok (es2, logs2) => .ok (.entryDict es2, logs1 ++ logs2)
  | n + 1, loc, .entryList es =>
    match mwStepElems rule loc 0 es with
    | .error e => .error e
    | .ok (es1, logs1) =>
      match mwDescendElems (mwWalkE rule n) loc 0 es1 with
      | .error e => .error e
      | .ok (es2, logs2) => .ok (.entryList es2, logs1 ++ logs2)
  | _ + 1, _, t => .ok (t, [])

/-- The full `middleware(func)` wrapper applied at the fake head
`{"<root>": tree}`: the first yield applies the rule to the true root at
location `".<root>"`; then the generator recurses into the (possibly
replaced) root at walk location `"<root>"`; finally
`assert is_entry_node(fake_head.get("<root>"))`. -/
def middlewareE (rule : RuleE) (fuel : Nat) (t : Entry) :
    Except Exc (Entry × List LogMsg) :=
  let head : Except Exc (Entry × List LogMsg) :=
    if t.isNode then
      match rule ".<root>" t with
      | .error e => .error e
      | .ok (r, logs) => .ok (r.getD t, logs)
    else .ok (t, ([] : List LogMsg))
  match head with
  | .error e => .error e
  | .ok (t0, logs0) =>
    let walked : Except Exc (Entry × List LogMsg) :=
      if t0.isNode then mwWalkE rule fuel "<root>" t0
      else .ok (t0, ([] : List LogMsg))
    match walked with
    | .error e => .error e
    | .ok (t1, logs1) =>
      if t1.isNode then .ok (t1, logs0 ++ logs1) else .error .assertionError

/-- Embedding of a rule that can neither raise nor log. -/
def pureR (rule : String → Entry → Option Entry) : RuleE :=
  fun loc t => .ok (rule loc t, [])

/-- `to_python_property_name` applied to the items of one dict: rename every
key with `_normalize_property_name` (first failure aborts), logging a debug
message for each actual rename. -/
def normPairs (loc : String) :
    List (String × Entry) → Except Exc (List (String × Entry) × List LogMsg)
  | [] => .ok ([], [])
  | (k, v) :: rest =>
    match normalizePropertyName loc k with
    | .error e => .error e
    | .ok (res, logs) =>
      match normPairs loc rest with
      | .error e => .error e
      | .ok (ps, logs1) =>
        .ok ((res, v) :: ps,
          logs ++ (if res ≠ k then [LogMsg.renamedDebug loc k res] else []) ++ logs1)

/-- The `to_python_property_name` middleware rule: logs a debug check for
every node, rebuilds dict nodes with `{con(k): v for k, v in tree.items()}`
(a collision silently overwrites, keeping the first occurrence's position),
and leaves list nodes untouched (implicit `None` return). -/
def toPythonPropertyNameRule : RuleE := fun loc t =>
  match t with
  | .entryDict es =>
    match normPairs loc es with
    | .error e => .error e
    | .ok (ps, logs) =>
      .ok (some (.entryDict (dictComprehension ps)), .checkingDebug loc :: logs)
  | _ => .ok (none, [.checkingDebug loc])

/-! ## `remove_known_extensions` (middlewares.py)

`re.fullmatch(r"(.+)\.([^\.]+)", k)` succeeds exactly when `k` splits as
`name ++ "." ++ ext` with `name` nonempty and `ext` the nonempty, dot-free
segment after the *last* dot (the greedy `(.+)` maximises `name`).  The
user-supplied extension pattern `re.fullmatch(extensions, ext)` is modelled
by an arbitrary predicate `extMatch`. -/

/-- Split a character list at its last dot, provided the part after it is
nonempty and dot-free; returns `(before, after)`. -/
def splitLastDot : List Char → Option (List Char × List Char)
  | [] => none
  | c :: rest =>
    match splitLastDot rest with
    | some (n, e) => some (c :: n, e)
    | none =>
      if c = '.' && !rest.isEmpty && !rest.contains '.' then some ([], rest)
      else none

/-- `re.fullmatch(r"(.+)\.([^\.]+)", k)`: the `(name, ext)` groups, if any. -/
def splitNameExt (k : String) : Option (String × String) :=
  match splitLastDot k.toList with
  | some (n, e) => if n.isEmpty then none else some (String.mk n, String.mk e)
  | none => none

/-- The stem a key is renamed to when its extension matches, if any. -/
def stripMatch (extMatch : String → Bool) (k : String) : Option String :=
  match splitNameExt k with
  | some (name, ext) => if extMatch ext then some name else none
  | none => none

/-- One iteration of `for k in list(mapping.keys())`: on a match,
`mapping[name] = mapping.pop(k)` (the duplicate-key warning is elided; the
`pop` cannot `KeyError` because snapshot keys are only ever removed when
their own iteration processes them, so the `none` lookup branch is dead for
states reachable from a Python dict). -/
def stripStep (extMatch : String → Bool) (m : List (String × Entry)) (k : String) :
    List (String × Entry) :=
  match stripMatch extMatch k with
  | none => m
  | some name =>
    match lookupKey m k with
    | none => m
    | some v => insertOverwrite (removeKey m k) name v

/-- The body of the `mid` rule on one dict: iterate over a snapshot of the
original keys, mutating the mapping. -/
def stripPass (extMatch : String → Bool) (es : List (String × Entry)) :
    List (String × Entry) :=
  (es.map Prod.fst).foldl (stripStep extMatch) es

/-- The middleware created by `remove_known_extensions`: mutates dict nodes
in place (modelled as returning the mutated node) and ignores list nodes. -/
def removeKnownExtensionsRule (extMatch : String → Bool) : RuleE := fun _ t =>
  match t with
  | .entryDict es => .ok (some (.entryDict (stripPass extMatch es)), [])
  | _ => .ok (none, [])

/-! ## `group_by` (middlewares.py)

`re.fullmatch(p, key)` is modelled by `matchFn : String → Option (Option
String × List (Option String))` returning `(m.group(1), m.groups()[1:])` on
a match.  All warnings and the `r.info` call are elided (no claim concerns
them). -/

/-- The `str | int | None` path components of a decomposed key. -/
inductive PathElem where
  | strE (s : String)
  | intE (n : Nat)
  | noneE
deriving DecidableEq, Repr

/-- Decimal value of a digit string (`int(e)`). -/
def digitsToNat (l : List Char) : Nat :=
  l.foldl (fun n c => n * 10 + (c.toNat - '0'.toNat)) 0

/-- `entry_to_int_if_needed`: numeric-looking components become ints
(`str.isnumeric` is false on the empty string). -/
def entryToIntIfNeeded (e : Option String) : PathElem :=
  match e with
  | none => .noneE
  | some s =>
    if !s.toList.isEmpty && s.toList.all Char.isDigit then
      .intE (digitsToNat s.toList)
    else .strE s

/-- `[m.group(1), *[entry_to_int_if_needed(e) for e in m.groups()[1:]]]` —
the first group is *not* coerced to an int. -/
def groupEntryPath (g1 : Option String) (rest : List (Option String)) :
    List PathElem :=
  (match g1 with | none => PathElem.noneE | some s => PathElem.strE s)
    :: rest.map entryToIntIfNeeded

/-- A grouped collection of entries, insertion-ordered (a `defaultdict`). -/
def appendToGroup {α : Type} [DecidableEq α]
    (d : List (α × List (List PathElem × Entry)))
    (k : α) (item : List PathElem × Entry) :
    List (α × List (List PathElem × Entry)) :=
  if d.any (fun p => p.1 = k) then
    d.map fun p => if p.1 = k then (p.1, p.2 ++ [item]) else p
  else d ++ [(k, [item])]

/-- The `dstr` grouping loop of `reducer` (string branch): `path[0]` raises
`IndexError` on an empty path; `None` keys and int keys are skipped with a
warning. -/
def groupStr (acc : List (String × List (List PathElem × Entry))) :
    List (List PathElem × Entry) →
    Except Exc (List (String × List (List PathElem × Entry)))
  | [] => .ok acc
  | (path, o) :: rest =>
    match path with
    | [] => .error .indexError
    | .noneE :: _ => groupStr acc rest
    | .intE _ :: _ => groupStr acc rest
    | .strE k :: tl => groupStr (appendToGroup acc k (tl, o)) rest

/-- The `dint` grouping loop of `reducer` (int branch). -/
def groupInt (acc : List (Nat × List (List PathElem × Entry))) :
    List (List PathElem × Entry) →
    Except Exc (List (Nat × List (List PathElem × Entry)))
  | [] => .ok acc
  | (path, o) :: rest =>
    match path with
    | [] => .error .indexError
    | .noneE :: _ => groupInt acc rest
    | .strE _ :: _ => groupInt acc rest
    | .intE k :: tl => groupInt (appendToGroup acc k (tl, o)) rest

/-- `max(dint.keys())` (the caller guarantees nonemptiness). -/
def maxKey (d : List (Nat × List (List PathElem × Entry))) : Nat :=
  d.foldl (fun m p => max m p.1) 0

/-- `EntryDict({k: reducer(r, v, f"{keyname}.{k}") for k, v in dstr.items()})`,
with `red` the reducer one path level down. -/
def reducePairs (red : List (List PathElem × Entry) → String → Except Exc Entry) :
    List (String × List (List PathElem × Entry)) → String →
    Except Exc (List (String × Entry))
  | [], _ => .ok []
  | (k, g) :: rest, keyname =>
    match red g (keyname ++ "." ++ k) with
    | .error e => .error e
    | .ok v =>
      match reducePairs red rest keyname with
      | .error e => .error e
      | .ok ps => .ok ((k, v) :: ps)

/-- `l = EntryList([None] * (max(dint.keys()) + 1)); for k, v in dint.items():
l[k] = reducer(...)`, with `red` the reducer one path level down. -/
def reduceFill (red : List (List PathElem × Entry) → String → Except Exc Entry) :
    List Entry → List (Nat × List (List PathElem × Entry)) →
    String → Except Exc (List Entry)
  | l, [], _ => .ok l
  | l, (k, g) :: rest, keyname =>
    match red g (keyname ++ "[" ++ toString k ++ "]") with
    | .error e => .error e
    | .ok v => reduceFill red (l.set k v) rest keyname

/-- `reducer` from middlewares.py.  Recursion is on the decomposed key paths
(shortened by one on every call), modelled with `fuel`; a path of
`None`/mixed type in the first entry hits the `assert isinstance(..., int)`.
The collision warnings (`Multiple entries for keyname`) are elided; the
first-seen entry wins. -/
def reducer : Nat → List (List PathElem × Entry) → String → Except Exc Entry
  | 0, _, _ => .error .fuelOut
  | _ + 1, [], _ => .ok .pynone
  | n + 1, (p0, o0) :: rest, keyname =>
    match p0 with
    | [] => .ok o0
    | .strE _ :: _ =>
      match groupStr [] ((p0, o0) :: rest) with
      | .error e => .error e
      | .ok dstr =>
        match reducePairs (reducer n) dstr keyname with
        | .error e => .error e
        | .ok ps => .ok (.entryDict ps)
    | .intE _ :: _ =>
      match groupInt [] ((p0, o0) :: rest) with
      | .error e => .error e
      | .ok dint =>
        if dint.isEmpty then .error .valueError
        else
          match reduceFill (reducer n)
              (List.replicate (maxKey dint + 1) Entry.pynone)
              dint keyname with
          | .error e => .error e
          | .ok l => .ok (.entryList l)
    | .noneE :: _ => .error .assertionError

/-- The `grouper` middleware created by `group_by(p)`: partition a dict's
items by whether the key fully matches `p`, reduce the matching ones, and —
when the reduced result is truthy (a nonempty dict; `None` and `{}` are
falsy, other shapes cannot arise from a single pattern) — merge the
untouched remainder into it with `res.update(rem)` (remainder wins on
collision) and return it. -/
def groupByRule
    (matchFn : String → Option (Option String × List (Option String)))
    (rfuel : Nat) : RuleE := fun loc t =>
  match t with
  | .entryDict es =>
    let split := es.foldl
      (fun (acc : List (List PathElem × Entry) × List (String × Entry)) p =>
        match matchFn p.1 with
        | some (g1, rest) => (acc.1 ++ [(groupEntryPath g1 rest, p.2)], acc.2)
        | none => (acc.1, acc.2 ++ [p]))
      ([], [])
    match reducer rfuel split.1 loc with
    | .error e => .error e
    | .ok res =>
      match res with
      | .entryDict [] => .ok (none, [])
      | .entryDict rs =>
        .ok (some (.entryDict
          (split.2.foldl (fun a p => insertOverwrite a p.1 p.2) rs)), [])
      | _ => .ok (none, [])
  | _ => .ok (none, [])

/-! ## Loader Pipeline (loaders.py `fallback`, lib.py `func`)

A loader `(self, obj) -> value-or-None` either declines (`none`), produces a
loaded leaf value, or raises.  Logs emitted before an exception propagates
are kept alongside the result. -/

abbrev Loader : Type := Leafval → Except Exc (Option Leafval) × List LogMsg

/-- The `fallback(fallback_value)` decorator: catch any exception from the
wrapped loader, log at error level, and return the configured fallback
value. -/
def fallbackLoader (fallbackValue : Leafval) (f : Loader) : Loader := fun o =>
  match f o with
  | (.error e, logs) => (.ok (some fallbackValue), logs ++ [.loadFail o e])
  | (.ok r, logs) => (.ok r, logs)

/-- The `func` closure of `ResourceManager.__init__`: try each loader in
order; the first non-`None` result wins; an exception is logged at critical
level with the location and the offending value, then re-raised; if every
loader declines, warn and pass the raw value through. -/
def runLoaders (loaders : List Loader) (location : String) (o : Leafval) :
    Except Exc Leafval × List LogMsg :=
  match loaders with
  | [] => (.ok o, [.noLoaderWarn location o])
  | ld :: rest =>
    match ld o with
    | (.error e, logs) => (.error e, logs ++ [.loadCritical location o])
    | (.ok (some r), logs) => (.ok r, logs)
    | (.ok none, logs) =>
      match runLoaders rest location o with
      | (res, logs1) => (res, logs ++ logs1)

mutual

/-- The value side of `traverse_tree_generate_namedtuple_or_tuple`: rebuild
the tree, passing every non-`None` leaf through the Loader Pipeline; nested
nodes recurse with the child location, leaves are loaded at the parent's
location (as in the source). -/
def loadTree (loaders : List Loader) : Entry → String →
    Except Exc (Entry × List LogMsg)
  | .entryDict es, location =>
    match loadPairs loaders es location with
    | .error e => .error e
    | .ok (es1, logs) => .ok (.entryDict es1, logs)
  | .entryList es, location =>
    match loadElems loaders es location 0 with
    | .error e => .error e
    | .ok (es1, logs) => .ok (.entryList es1, logs)
  | t, _ => .ok (t, [])

/-- Items of a dict node under the load traversal. -/
def loadPairs (loaders : List Loader) :
    List (String × Entry) → String →
    Except Exc (List (String × Entry) × List LogMsg)
  | [], _ => .ok ([], [])
  | (k, v) :: rest, location =>
    let one : Except Exc (Entry × List LogMsg) :=
      match v with
      | .entryDict ds => loadTree loaders (.entryDict ds) (location ++ "." ++ k)
      | .entryList ls => loadTree loaders (.entryList ls) (location ++ "." ++ k)
      | .pynone => .ok (.pynone, [])
      | .leaf lv =>
        match runLoaders loaders location lv with
        | (.error e, _) => .error e
        | (.ok r, logs) => .ok (.leaf r, logs)
    match one with
    | .error e => .error e
    | .ok (v1, logs) =>
      match loadPairs loaders rest location with
      | .error e => .error e
      | .ok (rest1, logs1) => .ok ((k, v1) :: rest1, logs ++ logs1)

/-- Elements of a list node under the load traversal. -/
def loadElems (loaders : List Loader) :
    List Entry → String → Nat →
    Except Exc (List Entry × List LogMsg)
  | [], _, _ => .ok ([], [])
  | v :: rest, location, i =>
    let one : Except Exc (Entry × List LogMsg) :=
      match v with
      | .entryDict ds => loadTree loaders (.entryDict ds) (location ++ "." ++ toString i)
      | .entryList ls => loadTree loaders (.entryList ls) (location ++ "." ++ toString i)
      | .pynone => .ok (.pynone, [])
      | .leaf lv =>
        match runLoaders loaders location lv with
        | (.error e, _) => .error e
        | (.ok r, logs) => .ok (.leaf r, logs)
    match one with
    | .error e => .error e
    | .ok (v1, logs) =>
      match loadElems loaders rest location (i + 1) with
      | .error e => .error e
      | .ok (rest1, logs1) => .ok (v1 :: rest1, logs ++ logs1)

end

/-! ## The construction pipeline of `ResourceManager.__init__`

In source order: user middlewares (each already wrapped by `@middleware`),
the built-in `to_python_property_name` pass, the MD5 fingerprint of the
resulting tree, `assert isinstance(self.entry_tree, EntryDict)`, then the
load/codegen traversal.  The fingerprint is computed *before* any loader
runs. -/

/-- `for middleware in self.middlewares: tree = middleware(self, "<root>", tree)`. -/
def applyMiddlewares (fuel : Nat) (mws : List RuleE) (t : Entry) :
    Except Exc Entry :=
  match mws with
  | [] => .ok t
  | mw :: rest =>
    match middlewareE mw fuel t with
    | .error e => .error e
    | .ok (t1, _) => applyMiddlewares fuel rest t1

/-- The observable outcome of one construction run. -/
structure RunOut where
  checksum : List Char
  root : Entry
deriving Repr

/-- One construction run over an already-scanned tree. -/
def rmRun (mws : List RuleE) (loaders : List Loader) (fuel : Nat) (t : Entry) :
    Except Exc RunOut :=
  match applyMiddlewares fuel mws t with
  | .error e => .error e
  | .ok t1 =>
    match middlewareE toPythonPropertyNameRule fuel t1 with
    | .error e => .error e
    | .ok (t2, _) =>
      let checksum := md5Input t2
      match t2 with
      | .entryDict _ =>
        match loadTree loaders t2 "root" with
        | .error e => .error e
        | .ok (root, _) => .ok ⟨checksum, root⟩
      | _ => .error .assertionError

/-! ## Declaration artifact (`DefinitionFile` + the regenerate decision)

The artifact file's text is a character list; a missing file is `none`. -/

/-- `f.readline()` minus its trailing newline. -/
def firstLineL (s : List Char) : List Char :=
  s.takeWhile fun c => c ≠ '\n'

/-- Python `str.strip()`. -/
def pyStrip (s : List Char) : List Char :=
  ((s.dropWhile Char.isWhitespace).reverse.dropWhile Char.isWhitespace).reverse

/-- `DefinitionFile.read_integrity`: empty string when the file is missing,
else `readline()[2:].strip()`. -/
def readIntegrityL (file : Option (List Char)) : List Char :=
  match file with
  | none => []
  | some s => pyStrip ((firstLineL s).drop 2)

/-- `DefinitionFile.write(integrity, content)`: the written text starts with
the line `# {integrity}`; the rest (timestamp header, import statement,
generated body) is abstracted as `rest`. -/
def definitionFileWrite (integrity rest : List Char) : List Char :=
  '#' :: ' ' :: (integrity ++ '\n' :: rest)

/-- Lines 191–199 and 316–320 of lib.py: decide `regenerate` from the
artifact's existence and stored integrity, and write only when regenerating.
Returns (whether a write occurred, the resulting file state). -/
def definitionFileUpdate (prior : Option (List Char)) (checksum rest : List Char) :
    Bool × Option (List Char) :=
  let regenerate :=
    match prior with
    | some s => if readIntegrityL (some s) = checksum then false else true
    | none => true
  (regenerate,
    if regenerate then some (definitionFileWrite checksum rest) else prior)

/-! ## Directory Scanner (`_create_unified_directory_mapping`)

A filesystem is a finite tree of named files and subdirectories; `os.walk`
yields `(root, dirs, files)` and the code inserts files first, then
directories.  For each subdirectory the source calls `recursive_mapper`
*twice*: once into a fresh dict that is stored, then again with that stored
(and aliased) dict as the accumulator. -/

/-- A directory: file names and named subdirectories, in `os.walk` order. -/
inductive FS where
  | dir (files : List String) (subs : List (String × FS))

mutual

/-- `recursive_mapper(path, unified_part)`. `ignore` models
`re.fullmatch(self.config.ignore, name)`; a stored `Path`'s `.parts` are the
walked root's parts plus the basename. -/
def recursiveMapper (ignore : String → Bool) :
    FS → List String → List (String × Entry) → List (String × Entry)
  | .dir files subs, rootParts, acc =>
    let acc1 := files.foldl
      (fun a f =>
        if ignore f then a
        else insertOverwrite a f (.leaf (.pathv (rootParts ++ [f]))))
      acc
    mapperDirs ignore subs rootParts acc1

/-- The subdirectory loop, including the duplicated recursive call. -/
def mapperDirs (ignore : String → Bool) :
    List (String × FS) → List String → List (String × Entry) →
    List (String × Entry)
  | [], _, acc => acc
  | (dn, dfs) :: rest, rootParts, acc =>
    if ignore dn then mapperDirs ignore rest rootParts acc
    else
      let d1 := recursiveMapper ignore dfs (rootParts ++ [dn]) []
      let acc2 := insertOverwrite acc dn (.entryDict d1)
      let d2 := recursiveMapper ignore dfs (rootParts ++ [dn]) d1
      mapperDirs ignore rest rootParts (insertOverwrite acc2 dn (.entryDict d2))

end

mutual

/-- Specification-side scanner, from the spec's words: exactly one
`Leaf(path)` per non-ignored file, then one recursively scanned `MapNode`
per non-ignored subdirectory, names fully matching the ignore pattern
skipped at every level. -/
def cleanScan (ignore : String → Bool) : FS → List String → List (String × Entry)
  | .dir files subs, rootParts =>
    (files.filter fun f => !ignore f).map
        (fun f => (f, Entry.leaf (.pathv (rootParts ++ [f]))))
      ++ cleanDirs ignore subs rootParts

/-- Subdirectories under the specification-side scanner. -/
def cleanDirs (ignore : String → Bool) :
    List (String × FS) → List String → List (String × Entry)
  | [], _ => []
  | (dn, dfs) :: rest, rootParts =>
    if ignore dn then cleanDirs ignore rest rootParts
    else (dn, Entry.entryDict (cleanScan ignore dfs (rootParts ++ [dn])))
        :: cleanDirs ignore rest rootParts

end

mutual

/-- Well-formedness of a scanned filesystem: within every directory the
file and subdirectory names are pairwise distinct. -/
def FS.wf : FS → Bool
  | .dir files subs =>
    decide ((files ++ subs.map Prod.fst).Nodup) && FS.wfDirs subs

/-- All subdirectories are well-formed. -/
def FS.wfDirs : List (String × FS) → Bool
  | [] => true
  | (_, dfs) :: rest => FS.wf dfs && FS.wfDirs rest

end

/-! ## Claim-side traversal specifications

`RuleP` is a rule that neither raises nor logs.  `buWalk` renders the
spec's claimed *post-order* traversal (all descendant nodes rewritten,
bottom-up, before the rule sees the node; the synthetic wrapper root lets
the true root be replaced; `none` leaves the node in place).  `tdWalk`
renders the code's actual *pre-order* traversal in fused single-pass form
(the rule rewrites a node before its subtree is descended into). -/

abbrev RuleP : Type := String → Entry → Option Entry

mutual

/-- Post-order rewrite of one node, per the claim: rewrite all node-valued
descendants first (recursively, bottom-up), then invoke the rule on the
current node, substituting its replacement if any. -/
def buWalk (rule : RuleP) (ruleLoc walkLoc : String) (t : Entry) : Entry :=
  let t1 :=
    match t with
    | .entryDict es => Entry.entryDict (buPairs rule walkLoc es)
    | .entryList es => Entry.entryList (buElems rule walkLoc 0 es)
    | other => other
  (rule ruleLoc t1).getD t1

/-- Post-order rewrite of a dict's node-valued children. -/
def buPairs (rule : RuleP) (walkLoc : String) :
    List (String × Entry) → List (String × Entry)
  | [] => []
  | (k, v) :: rest =>
    (k,
      if v.isNode then
        buWalk rule (walkLoc ++ "." ++ k) (walkLoc ++ "." ++ k) v
      else v) :: buPairs rule walkLoc rest

/-- Post-order rewrite of a list's node-valued elements. -/
def buElems (rule : RuleP) (walkLoc : String) (i : Nat) :
    List Entry → List Entry
  | [] => []
  | v :: rest =>
    (if v.isNode then
        buWalk rule (walkLoc ++ "." ++ toString i) (walkLoc ++ "[" ++ toString i ++ "]") v
      else v) :: buElems rule walkLoc (i + 1) rest

end

/-- The claimed post-order middleware application: the synthetic wrapper
root gives the rule a chance to replace the true root (location `".<root>"`)
after all its descendants have been rewritten. -/
def buApply (rule : RuleP) (t : Entry) : Entry :=
  buWalk rule ".<root>" "<root>" t

/-- Top-down rewrite of a dict's node-valued children, `walk` being the
traversal one fuel level down. -/
def tdPairs (rule : RuleP) (walk : String → Entry → Entry) (loc : String) :
    List (String × Entry) → List (String × Entry)
  | [] => []
  | (k, v) :: rest =>
    (k,
      if v.isNode then
        walk (loc ++ "." ++ k) ((rule (loc ++ "." ++ k) v).getD v)
      else v) :: tdPairs rule walk loc rest

/-- Top-down rewrite of a list's node-valued elements. -/
def tdElems (rule : RuleP) (walk : String → Entry → Entry) (loc : String)
    (i : Nat) : List Entry → List Entry
  | [] => []
  | v :: rest =>
    (if v.isNode then
        walk (loc ++ "[" ++ toString i ++ "]")
          ((rule (loc ++ "." ++ toString i) v).getD v)
      else v) :: tdElems rule walk loc (i + 1) rest

/-- Fused form of the code's traversal: each node-valued child is first
offered to the rule and the (possibly replaced) child's subtree is then
descended into, top-down. -/
def tdWalk (rule : RuleP) : Nat → String → Entry → Entry
  | 0, _, t => t
  | n + 1, loc, .entryDict es => .entryDict (tdPairs rule (tdWalk rule n) loc es)
  | n + 1, loc, .entryList es => .entryList (tdElems rule (tdWalk rule n) loc 0 es)
  | _ + 1, _, t => t

/-- The top-down application with the synthetic wrapper root: the rule sees
the true root first (location `".<root>"`), and the walk then descends into
the replaced root. -/
def tdApply (rule : RuleP) (fuel : Nat) (t : Entry) : Entry :=
  tdWalk rule fuel "<root>" ((rule ".<root>" t).getD t)

/-! ## Tree-edit relations for fingerprint sensitivity (claim C1) -/

/-- `t'` arises from `t` by renaming one dict key anywhere in the tree
(value unchanged). -/
inductive RenamedKey : Entry → Entry → Prop where
  | here (ps qs : List (String × Entry)) (k k1 : String) (v : Entry)
      (hne : k ≠ k1) :
      RenamedKey (.entryDict (ps ++ (k, v) :: qs)) (.entryDict (ps ++ (k1, v) :: qs))
  | inDict (ps qs : List (String × Entry)) (k : String) (u u1 : Entry)
      (h : RenamedKey u u1) :
      RenamedKey (.entryDict (ps ++ (k, u) :: qs)) (.entryDict (ps ++ (k, u1) :: qs))
  | inList (ps qs : List Entry) (u u1 : Entry) (h : RenamedKey u u1) :
      RenamedKey (.entryList (ps ++ u :: qs)) (.entryList (ps ++ u1 :: qs))

/-- `t'` arises from `t` by inserting one file entry (a nonempty key mapped
to a `Path` leaf) into some dict node. -/
inductive InsertedFile : Entry → Entry → Prop where
  | here (ps qs : List (String × Entry)) (k : String) (parts : List String)
      (hk : k ≠ "") :
      InsertedFile (.entryDict (ps ++ qs))
        (.entryDict (ps ++ (k, .leaf (.pathv parts)) :: qs))
  | inDict (ps qs : List (String × Entry)) (k : String) (u u1 : Entry)
      (h : InsertedFile u u1) :
      InsertedFile (.entryDict (ps ++ (k, u) :: qs)) (.entryDict (ps ++ (k, u1) :: qs))
  | inList (ps qs : List Entry) (u u1 : Entry) (h : InsertedFile u u1) :
      InsertedFile (.entryList (ps ++ u :: qs)) (.entryList (ps ++ u1 :: qs))

/-! ## Helper lemmas: grouping and filling (claim C6) -/

/-- The integer first components of the decomposed key paths. -/
def intHeads (entries : List (List PathElem × Entry)) : List Nat :=
  entries.filterMap fun p =>
    match p.1 with
    | .intE k :: _ => some k
    | _ => none

theorem appendToGroup_keys {α : Type} [DecidableEq α]
    (d : List (α × List (List PathElem × Entry))) (k : α)
    (item : List PathElem × Entry) (x : α) :
    x ∈ (appendToGroup d k item).map Prod.fst ↔
      x ∈ d.map Prod.fst ∨ x = k := by
  unfold appendToGroup
  by_cases h : d.any (fun p => p.1 = k) = true
  · simp only [h, if_pos]
    have hmap : (d.map fun p => if p.1 = k then (p.1, p.2 ++ [item]) else p).map Prod.fst
        = d.map Prod.fst := by
      rw [List.map_map]
      apply List.map_congr_left
      intro p _
      by_cases hp : p.1 = k <;> simp [hp]
    rw [hmap]
    simp only [List.any_eq_true, decide_eq_true_eq] at h
    obtain ⟨p, hp, hpk⟩ := h
    constructor
    · exact fun hx => Or.inl hx
    · rintro (hx | rfl)
      · exact hx
      · exact List.mem_map.mpr ⟨p, hp, hpk⟩
  · simp only [h, if_neg, Bool.false_eq_true, not_false_iff]
    simp

theorem groupInt_ok (entries : List (List PathElem × Entry))
    (hint : ∀ p ∈ entries, ∃ k tl, p.1 = PathElem.intE k :: tl) :
    ∀ acc, ∃ d, groupInt acc entries = .ok d ∧
      (∀ x, x ∈ d.map Prod.fst ↔ x ∈ acc.map Prod.fst ∨ x ∈ intHeads entries) := by
  induction entries with
  | nil =>
    intro acc
    refine ⟨acc, rfl, ?_⟩
    simp [intHeads]
  | cons p rest ih =>
    intro acc
    obtain ⟨k, tl, hp⟩ := hint p (List.mem_cons_self _ _)
    obtain ⟨path, o⟩ := p
    simp only at hp
    subst hp
    obtain ⟨d, hd, hkeys⟩ := ih (fun q hq => hint q (List.mem_cons_of_mem _ hq))
      (appendToGroup acc k (tl, o))
    refine ⟨d, hd, ?_⟩
    intro x
    rw [hkeys x, appendToGroup_keys]
    simp only [intHeads, List.filterMap_cons]
    constructor
    · rintro ((hx | rfl) | hx)
      · exact Or.inl hx
      · exact Or.inr (by simp)
      · exact Or.inr (by simp [intHeads] at hx ⊢; exact Or.inr hx)
    · rintro (hx | hx)
      · exact Or.inl (Or.inl hx)
      · simp only [List.mem_cons] at hx
        rcases hx with rfl | hx
        · exact Or.inl (Or.inr rfl)
        · exact Or.inr (by simpa [intHeads] using hx)

theorem reduceFill_length
    (red : List (List PathElem × Entry) → String → Except Exc Entry)
    (d : List (Nat × List (List PathElem × Entry))) (keyname : String) :
    ∀ l l1, reduceFill red l d keyname = .ok l1 → l1.length = l.length := by
  induction d with
  | nil =>
    intro l l1 h
    simp only [reduceFill] at h
    cases h
    rfl
  | cons p rest ih =>
    intro l l1 h
    obtain ⟨k, g⟩ := p
    simp only [reduceFill] at h
    cases hr : red g (keyname ++ "[" ++ toString k ++ "]") with
    | error e => rw [hr] at h; cases h
    | ok v =>
      rw [hr] at h
      have := ih (l.set k v) l1 h
      simpa using this

theorem reduceFill_getD
    (red : List (List PathElem × Entry) → String → Except Exc Entry)
    (d : List (Nat × List (List PathElem × Entry))) (keyname : String)
    (i : Nat) (hi : i ∉ d.map Prod.fst) :
    ∀ l l1, reduceFill red l d keyname = .ok l1 →
      l1.getD i Entry.pynone = l.getD i Entry.pynone := by
  induction d with
  | nil =>
    intro l l1 h
    simp only [reduceFill] at h
    cases h
    rfl
  | cons p rest ih =>
    intro l l1 h
    obtain ⟨k, g⟩ := p
    simp only [List.map_cons, List.mem_cons, not_or] at hi
    simp only [reduceFill] at h
    cases hr : red g (keyname ++ "[" ++ toString k ++ "]") with
    | error e => rw [hr] at h; cases h
    | ok v =>
      rw [hr] at h
      have h1 := ih hi.2 (l.set k v) l1 h
      rw [h1]
      unfold List.getD
      rw [List.get?_set_ne _ _ (Ne.symm hi.1)]

theorem foldlMax_le_iff (l : List Nat) :
    ∀ a n, l.foldl max a ≤ n ↔ a ≤ n ∧ ∀ x ∈ l, x ≤ n := by
  induction l with
  | nil => intro a n; simp
  | cons x rest ih =>
    intro a n
    simp only [List.foldl_cons, ih, List.mem_cons]
    constructor
    · rintro ⟨hm, hall⟩
      exact ⟨le_trans (le_max_left _ _) hm,
        fun y hy => hy.elim (fun h => h ▸ le_trans (le_max_right _ _) hm) (hall y)⟩
    · rintro ⟨ha, hall⟩
      exact ⟨max_le ha (hall x (Or.inl rfl)), fun y hy => hall y (Or.inr hy)⟩

theorem foldlMax_congr_members (l1 l2 : List Nat)
    (h : ∀ x, x ∈ l1 ↔ x ∈ l2) : l1.foldl max 0 = l2.foldl max 0 := by
  have h1 : ∀ x ∈ l1, x ≤ l1.foldl max 0 :=
    ((foldlMax_le_iff l1 0 _).mp le_rfl).2
  have h2 : ∀ x ∈ l2, x ≤ l2.foldl max 0 :=
    ((foldlMax_le_iff l2 0 _).mp le_rfl).2
  apply le_antisymm
  · exact (foldlMax_le_iff l1 0 _).mpr ⟨Nat.zero_le _, fun x hx => h2 x ((h x).mp hx)⟩
  · exact (foldlMax_le_iff l2 0 _).mpr ⟨Nat.zero_le _, fun x hx => h1 x ((h x).mpr hx)⟩

/-- The regex `(speech)_(\d)` of the spec's group-by example:
`m.group(1) = "speech"`, `m.groups()[1:] = (d,)` for a single digit `d`. -/
def speechMatch (k : String) : Option (Option String × List (Option String)) :=
  match k.toList with
  | ['s', 'p', 'e', 'e', 'c', 'h', '_', d] =>
    if d.isDigit then some (some "speech", [some (String.mk [d])]) else none
  | _ => none

/-- The MapNode of the claim, holding the (path) values of `speech_1` and
`speech_2`. -/
def exC6 : Entry :=
  .entryDict [("speech_1", .leaf (.pathv ["res", "speech_1.txt"])),
    ("speech_2", .leaf (.pathv ["res", "speech_2.txt"]))]

/-- claim C6: the group-by rule on a MapNode with keys `speech_1`, `speech_2`
under pattern `(speech)_(\d)` produces a single key `speech` holding a
sequence of length 3 with index 0 absent and indices 1 and 2 holding the two
values; and in general the int branch of `reducer` produces a list sized to
the maximum integer sub-key + 1 whose positions outside the occurring
sub-keys stay absent (`None`). -/
theorem c6_group_by_sizing :
    middlewareE (groupByRule speechMatch 3) 3 exC6 =
      .ok (.entryDict [("speech",
        .entryList [.pynone, .leaf (.pathv ["res", "speech_1.txt"]),
          .leaf (.pathv ["res", "speech_2.txt"])])], []) ∧
    ∀ (fuel : Nat) (entries : List (List PathElem × Entry)) (keyname : String)
      (l : List Entry),
      (∀ p ∈ entries, ∃ k tl, p.1 = PathElem.intE k :: tl) →
      reducer fuel entries keyname = .ok (.entryList l) →
      l.length = (intHeads entries).foldl max 0 + 1 ∧
        ∀ i, i < l.length → i ∉ intHeads entries →
          l.getD i Entry.pynone = Entry.pynone := by
  constructor
  · rfl
  · intro fuel entries keyname l hint hred
    match fuel, entries with
    | 0, _ => simp [reducer] at hred
    | _ + 1, [] => simp [reducer] at hred
    | n + 1, (p0, o0) :: rest =>
      obtain ⟨k0, tl0, hp0⟩ := hint (p0, o0) (List.mem_cons_self _ _)
      simp only at hp0
      subst hp0
      obtain ⟨dint, hdint, hkeys⟩ :=
        groupInt_ok ((PathElem.intE k0 :: tl0, o0) :: rest) hint []
      simp only [reducer, hdint] at hred
      have hk0mem : k0 ∈ dint.map Prod.fst := by
        rw [hkeys]
        right
        simp [intHeads]
      have hne : dint.isEmpty = false := by
        cases dint with
        | nil => simp at hk0mem
        | cons q ds => rfl
      rw [hne] at hred
      simp only [Bool.false_eq_true, if_false] at hred
      cases hfill : reduceFill (reducer n)
          (List.replicate (maxKey dint + 1) Entry.pynone)
          dint keyname with
      | error e => rw [hfill] at hred; cases hred
      | ok l1 =>
        rw [hfill] at hred
        cases hred
        have hlen := reduceFill_length (reducer n) dint keyname _ _ hfill
        rw [List.length_replicate] at hlen
        have hmax : maxKey dint =
            (intHeads ((PathElem.intE k0 :: tl0, o0) :: rest)).foldl max 0 := by
          unfold maxKey
          rw [← List.foldl_map (f := Prod.fst) (g := max)]
          apply foldlMax_congr_members
          intro x
          rw [hkeys x]
          simp
        constructor
        · rw [hlen, hmax]
        · intro i hi hinotin
          have hnotkeys : i ∉ dint.map Prod.fst := by
            rw [hkeys]
            simp only [List.map_nil, List.not_mem_nil, false_or]
            exact hinotin
          have := reduceFill_getD (reducer n) dint keyname i hnotkeys _ _ hfill
          rw [this]
          unfold List.getD
          rw [List.get?_eq_getElem?, List.getElem?_replicate]
          rw [hlen] at hi
          simp [hi]

/-- Witness for `c6_group_by_sizing`: the sizing/gap part at the concrete
entries of the example (`speech_1 ↦ index 1`, `speech_2 ↦ index 2`). -/
theorem c6_group_by_sizing_witness :
    [([PathElem.intE 1], Entry.leaf (.pathv ["res", "speech_1.txt"])),
      ([PathElem.intE 2], Entry.leaf (.pathv ["res", "speech_2.txt"]))].length = 2 ∧
    ∃ l : List Entry,
      reducer 2 [([PathElem.intE 1], Entry.leaf (.pathv ["res", "speech_1.txt"])),
        ([PathElem.intE 2], Entry.leaf (.pathv ["res", "speech_2.txt"]))] "root" =
        .ok (.entryList l) ∧
      l.length = 3 ∧ l.getD 0 Entry.pynone = Entry.pynone := by
  refine ⟨rfl, [Entry.pynone, Entry.leaf (.pathv ["res", "speech_1.txt"]),
    Entry.leaf (.pathv ["res", "speech_2.txt"])], rfl, ?_, ?_⟩
  · have := (c6_group_by_sizing.2 2
      [([PathElem.intE 1], Entry.leaf (.pathv ["res", "speech_1.txt"])),
        ([PathElem.intE 2], Entry.leaf (.pathv ["res", "speech_2.txt"]))] "root"
      [Entry.pynone, Entry.leaf (.pathv ["res", "speech_1.txt"]),
        Entry.leaf (.pathv ["res", "speech_2.txt"])]
      (by intro p hp; fin_cases hp
          · exact ⟨1, [], rfl⟩
          · exact ⟨2, [], rfl⟩) rfl).1
    simp only [intHeads, List.filterMap_cons] at this
    exact this
  · rfl

/-! ## Helper lemmas: the middleware traversal on pure rules (claim C2) -/

theorem tdWalk_nonnode (rule : RuleP) (fuel : Nat) (loc : String) (t : Entry)
    (h : t.isNode = false) : tdWalk rule fuel loc t = t := by
  cases fuel with
  | zero => rfl
  | succ n => cases t with
    | entryDict es => simp [Entry.isNode] at h
    | entryList es => simp [Entry.isNode] at h
    | leaf v => rfl
    | pynone => rfl

theorem tdWalk_isNode (rule : RuleP) (fuel : Nat) (loc : String) (t : Entry) :
    (tdWalk rule fuel loc t).isNode = t.isNode := by
  cases fuel with
  | zero => rfl
  | succ n => cases t <;> rfl

/-- What the wrapper step does to a dict's items under a pure rule. -/
def ruleStepPairs (rule : RuleP) (loc : String) :
    List (String × Entry) → List (String × Entry)
  | [] => []
  | (k, v) :: rest =>
    (k, if v.isNode then (rule (loc ++ "." ++ k) v).getD v else v)
      :: ruleStepPairs rule loc rest

/-- What the wrapper step does to a list's elements under a pure rule. -/
def ruleStepElems (rule : RuleP) (loc : String) (i : Nat) :
    List Entry → List Entry
  | [] => []
  | v :: rest =>
    (if v.isNode then (rule (loc ++ "." ++ toString i) v).getD v else v)
      :: ruleStepElems rule loc (i + 1) rest

theorem mwStepPairs_pure (rule : RuleP) (loc : String) :
    ∀ es, mwStepPairs (pureR rule) loc es = .ok (ruleStepPairs rule loc es, []) := by
  intro es
  induction es with
  | nil => rfl
  | cons p rest ih =>
    obtain ⟨k, v⟩ := p
    by_cases hv : v.isNode
    · simp [mwStepPairs, ruleStepPairs, hv, ih, pureR]
    · simp [mwStepPairs, ruleStepPairs, hv, ih]

theorem mwStepElems_pure (rule : RuleP) (loc : String) :
    ∀ es i, mwStepElems (pureR rule) loc i es = .ok (ruleStepElems rule loc i es, []) := by
  intro es
  induction es with
  | nil => intro i; rfl
  | cons v rest ih =>
    intro i
    by_cases hv : v.isNode
    · simp [mwStepElems, ruleStepElems, hv, ih, pureR]
    · simp [mwStepElems, ruleStepElems, hv, ih]

theorem mwDescendPairs_td (rule : RuleP) (n : Nat)
    (ih : ∀ loc t, mwWalkE (pureR rule) n loc t = .ok (tdWalk rule n loc t, []))
    (loc : String) :
    ∀ es, mwDescendPairs (mwWalkE (pureR rule) n) loc (ruleStepPairs rule loc es) =
      .ok (tdPairs rule (tdWalk rule n) loc es, []) := by
  intro es
  induction es with
  | nil => rfl
  | cons p rest ihes =>
    obtain ⟨k, v⟩ := p
    by_cases hv : v.isNode
    · have hnode : ∀ u : Entry, u.isNode = false → tdWalk rule n (loc ++ "." ++ k) u = u :=
        fun u hu => tdWalk_nonnode rule n _ u hu
      by_cases hr : ((rule (loc ++ "." ++ k) v).getD v).isNode
      · simp [ruleStepPairs, tdPairs, hv, mwDescendPairs, hr, ih, ihes]
      · simp [ruleStepPairs, tdPairs, hv, mwDescendPairs, hr, ihes,
          hnode _ (by simpa using hr)]
    · simp [ruleStepPairs, tdPairs, hv, mwDescendPairs, ihes]

theorem mwDescendElems_td (rule : RuleP) (n : Nat)
    (ih : ∀ loc t, mwWalkE (pureR rule) n loc t = .ok (tdWalk rule n loc t, []))
    (loc : String) :
    ∀ es i, mwDescendElems (mwWalkE (pureR rule) n) loc i (ruleStepElems rule loc i es) =
      .ok (tdElems rule (tdWalk rule n) loc i es, []) := by
  intro es
  induction es with
  | nil => intro i; rfl
  | cons v rest ihes =>
    intro i
    by_cases hv : v.isNode
    · have hnode : ∀ u : Entry, u.isNode = false →
          tdWalk rule n (loc ++ "[" ++ toString i ++ "]") u = u :=
        fun u hu => tdWalk_nonnode rule n _ u hu
      by_cases hr : ((rule (loc ++ "." ++ toString i) v).getD v).isNode
      · simp [ruleStepElems, tdElems, hv, mwDescendElems, hr, ih, ihes]
      · simp [ruleStepElems, tdElems, hv, mwDescendElems, hr, ihes,
          hnode _ (by simpa using hr)]
    · simp [ruleStepElems, tdElems, hv, mwDescendElems, ihes]

theorem mwWalkE_pure_td (rule : RuleP) :
    ∀ fuel loc t, mwWalkE (pureR rule) fuel loc t = .ok (tdWalk rule fuel loc t, []) := by
  intro fuel
  induction fuel with
  | zero => intro loc t; rfl
  | succ n ih =>
    intro loc t
    cases t with
    | entryDict es =>
      simp only [mwWalkE, tdWalk]
      rw [mwStepPairs_pure]
      simp only
      rw [mwDescendPairs_td rule n ih loc es]
      rfl
    | entryList es =>
      simp only [mwWalkE, tdWalk]
      rw [mwStepElems_pure]
      simp only
      rw [mwDescendElems_td rule n ih loc es 0]
      rfl
    | leaf v => rfl
    | pynone => rfl

theorem middlewareE_pure_td (rule : RuleP) (fuel : Nat) (t : Entry)
    (ht : t.isNode = true)
    (hroot : ((rule ".<root>" t).getD t).isNode = true) :
    middlewareE (pureR rule) fuel t = .ok (tdApply rule fuel t, []) := by
  unfold middlewareE tdApply
  simp only [ht, if_pos, pureR]
  simp only [hroot, if_pos]
  rw [mwWalkE_pure_td rule fuel "<root>" ((rule ".<root>" t).getD t)]
  simp only
  rw [tdWalk_isNode, hroot]
  rfl

theorem tdPairs_none (n : Nat) (loc : String)
    (ih : ∀ loc t, tdWalk (fun _ _ => none) n loc t = t) :
    ∀ es, tdPairs (fun _ _ => none) (tdWalk (fun _ _ => none) n) loc es = es := by
  intro es
  induction es with
  | nil => rfl
  | cons p rest ihes =>
    obtain ⟨k, v⟩ := p
    by_cases hv : v.isNode <;> simp [tdPairs, hv, ih, ihes]

theorem tdElems_none (n : Nat) (loc : String)
    (ih : ∀ loc t, tdWalk (fun _ _ => none) n loc t = t) :
    ∀ es i, tdElems (fun _ _ => none) (tdWalk (fun _ _ => none) n) loc i es = es := by
  intro es
  induction es with
  | nil => intro i; rfl
  | cons v rest ihes =>
    intro i
    by_cases hv : v.isNode <;> simp [tdElems, hv, ih, ihes]

theorem tdWalk_none : ∀ fuel loc t, tdWalk (fun _ _ => none) fuel loc t = t := by
  intro fuel
  induction fuel with
  | zero => intro loc t; rfl
  | succ n ih =>
    intro loc t
    cases t with
    | entryDict es => simp only [tdWalk]; rw [tdPairs_none n loc ih es]
    | entryList es => simp only [tdWalk]; rw [tdElems_none n loc ih es 0]
    | leaf v => rfl
    | pynone => rfl

/-! ## Claim C2: traversal order of the middleware wrapper -/

/-- A marker value used by the order-sensitive probe rule. -/
def goVal : Entry := .leaf (.obj "G")

/-- Remove a `"go"` entry and push a `"go"` marker into every dict-valued
child. -/
def pushGo (es : List (String × Entry)) : List (String × Entry) :=
  (es.filter fun p => p.1 ≠ "go").map fun p =>
    match p.2 with
    | .entryDict cs => (p.1, Entry.entryDict (cs ++ [("go", goVal)]))
    | other => (p.1, other)

/-- An order-sensitive probe rule: on a dict containing key `"go"`, move the
marker down into the dict children.  Pre-order and post-order traversals
give different results on `exC2`. -/
def goRule : RuleP := fun _ t =>
  match t with
  | .entryDict es => if hasKey es "go" then some (.entryDict (pushGo es)) else none
  | _ => none

/-- A root with a `"go"` marker and one empty dict child. -/
def exC2 : Entry := .entryDict [("go", goVal), ("a", .entryDict [])]

/-- counterexample to claim C2: the middleware wrapper is not post-order.
On `exC2` the code first applies `goRule` to the root (pushing the marker
into child `a`) and then applies it to the *replaced* child (consuming the
marker), producing `{a: {}}`; the claimed depth-first post-order
(`buApply`, children before parent) leaves the pushed marker in place,
producing `{a: {go: G}}`. -/
theorem c2_counterexample :
    middlewareE (pureR goRule) 5 exC2 = .ok (.entryDict [("a", .entryDict [])], []) ∧
    buApply goRule exC2 = .entryDict [("a", .entryDict [("go", goVal)])] ∧
    (middlewareE (pureR goRule) 5 exC2).map Prod.fst ≠ .ok (buApply goRule exC2) := by
  refine ⟨rfl, rfl, ?_⟩
  intro h
  rw [show (middlewareE (pureR goRule) 5 exC2).map Prod.fst
      = .ok (.entryDict [("a", .entryDict [])]) from rfl,
    show buApply goRule exC2 = .entryDict [("a", .entryDict [("go", goVal)])] from rfl] at h
  simp [goVal] at h

/-- claim C2 (amended): the middleware wrapper applies the rule depth-first
in *pre-order* over the synthetic single-entry wrapper root: the rule is
invoked on each node (the true root first, at location `".<root>"`) before
the node's — possibly replaced — children's subtrees are processed
(`tdWalk`/`tdApply`); a rule that returns nothing everywhere leaves the tree
unchanged. -/
theorem c2_preorder_traversal :
    (∀ (rule : RuleP) (fuel : Nat) (loc : String) (t : Entry),
      mwWalkE (pureR rule) fuel loc t = .ok (tdWalk rule fuel loc t, [])) ∧
    (∀ (rule : RuleP) (fuel : Nat) (t : Entry), t.isNode = true →
      ((rule ".<root>" t).getD t).isNode = true →
      middlewareE (pureR rule) fuel t = .ok (tdApply rule fuel t, [])) ∧
    (∀ (fuel : Nat) (t : Entry), t.isNode = true →
      middlewareE (pureR fun _ _ => none) fuel t = .ok (t, [])) := by
  refine ⟨mwWalkE_pure_td, fun rule fuel t ht hroot =>
    middlewareE_pure_td rule fuel t ht hroot, ?_⟩
  intro fuel t ht
  rw [middlewareE_pure_td (fun _ _ => none) fuel t ht (by simpa using ht)]
  unfold tdApply
  rw [show ((fun (_ : String) (_ : Entry) => (none : Option Entry)) ".<root>" t).getD t
      = t from rfl]
  rw [tdWalk_none]

/-- Witness for `c2_preorder_traversal`: the no-op rule leaves a concrete
one-entry dict unchanged. -/
theorem c2_preorder_traversal_witness :
    middlewareE (pureR fun _ _ => none) 1 (.entryDict [("a", .leaf (.obj "v"))]) =
      .ok (.entryDict [("a", .leaf (.obj "v"))], []) :=
  c2_preorder_traversal.2.2 1 (.entryDict [("a", .leaf (.obj "v"))]) rfl

/-! ## Helper lemmas: Python dict assignment semantics (claims C3, C10) -/

theorem lookupKey_eq_none_of_not_hasKey (acc : List (String × Entry)) (m : String)
    (h : hasKey acc m = false) : lookupKey acc m = none := by
  unfold lookupKey
  rw [List.find?_eq_none.mpr]
  · rfl
  · intro p hp hpm
    simp only [decide_eq_true_eq] at hpm
    unfold hasKey at h
    rw [List.any_eq_false] at h
    exact h p hp (by simp [hpm])

theorem map_overwrite_id (acc : List (String × Entry)) (k : String) (v : Entry)
    (h : hasKey acc k = false) :
    acc.map (fun p => if p.1 = k then (k, v) else p) = acc := by
  induction acc with
  | nil => rfl
  | cons p rest ih =>
    unfold hasKey at h
    simp only [List.any_cons, Bool.or_eq_false_iff] at h
    have hp : ¬ p.1 = k := by simpa using h.1
    simp only [List.map_cons, hp, if_neg, not_false_iff]
    rw [ih (by unfold hasKey; exact h.2)]

theorem lookupKey_cons (a : String) (b : Entry) (rest : List (String × Entry))
    (m : String) :
    lookupKey ((a, b) :: rest) m = if a = m then some b else lookupKey rest m := by
  unfold lookupKey
  by_cases h : a = m <;> simp [List.find?_cons, h]

theorem lookupKey_insertOverwrite (acc : List (String × Entry)) (k : String)
    (v : Entry) (m : String) :
    lookupKey (insertOverwrite acc k v) m =
      if k = m then some v else lookupKey acc m := by
  unfold insertOverwrite
  by_cases hk : hasKey acc k = true
  · rw [if_pos hk]
    induction acc with
    | nil => simp [hasKey] at hk
    | cons p rest ih =>
      obtain ⟨a, b⟩ := p
      by_cases hak : a = k
      · simp only [List.map_cons, hak, if_pos]
        rw [lookupKey_cons, lookupKey_cons]
        by_cases hkm : k = m
        · simp [hkm]
        · simp only [hkm, if_neg, not_false_iff]
          by_cases hrk : hasKey rest k = true
          · rw [ih hrk, if_neg hkm]
          · rw [map_overwrite_id rest k v (by simpa using hrk)]
      · simp only [List.map_cons, hak, if_neg, not_false_iff]
        rw [lookupKey_cons, lookupKey_cons]
        have hrk : hasKey rest k = true := by
          unfold hasKey at hk ⊢
          simp only [List.any_cons, Bool.or_eq_true] at hk
          rcases hk with hk | hk
          · exact absurd (by simpa using hk) hak
          · exact hk
        by_cases ham : a = m
        · have hkm : ¬ k = m := fun h => hak (by rw [h, ham])
          simp [ham, hkm]
        · simp only [ham, if_neg, not_false_iff]
          exact ih hrk
  · rw [if_neg hk]
    induction acc with
    | nil =>
      simp only [List.nil_append]
      rw [lookupKey_cons]
    | cons p rest ih =>
      obtain ⟨a, b⟩ := p
      unfold hasKey at hk
      simp only [List.any_cons, Bool.or_eq_true, not_or] at hk
      have hak : ¬ a = k := by simpa using hk.1
      have hrk : ¬ hasKey rest k = true := by unfold hasKey; simpa using hk.2
      simp only [List.cons_append]
      rw [lookupKey_cons, lookupKey_cons]
      by_cases ham : a = m
      · have hkm : ¬ k = m := fun h => hak (by rw [h, ham])
        simp [ham, hkm]
      · simp only [ham, if_neg, not_false_iff]
        exact ih hrk

/-- The value of the *last* assignment among entries whose key maps to `m`
under `f` (Python dict-comprehension overwrite semantics). -/
def lastWriteValue (f : String → String) (es : List (String × Entry)) (m : String) :
    Option Entry :=
  es.foldl (fun acc p => if f p.1 = m then some p.2 else acc) none

theorem lookupKey_foldl_insert (ps : List (String × Entry)) (m : String) :
    ∀ acc, lookupKey (ps.foldl (fun a p => insertOverwrite a p.1 p.2) acc) m =
      ps.foldl (fun a p => if p.1 = m then some p.2 else a) (lookupKey acc m) := by
  induction ps with
  | nil => intro acc; rfl
  | cons p rest ih =>
    intro acc
    simp only [List.foldl_cons]
    rw [ih (insertOverwrite acc p.1 p.2), lookupKey_insertOverwrite]

theorem lookupKey_dictComprehension (ps : List (String × Entry)) (m : String) :
    lookupKey (dictComprehension ps) m =
      ps.foldl (fun a p => if p.1 = m then some p.2 else a) none := by
  unfold dictComprehension
  rw [lookupKey_foldl_insert]
  rfl

/-! ## Claim C3: normalization collisions -/

/-- The name `_normalize_property_name` produces when it succeeds. -/
def normResult (loc k : String) : String :=
  match normalizePropertyName loc k with
  | .ok (r, _) => r
  | .error _ => ""

theorem normalizePropertyName_logs (loc k : String) (r : String) (lg : List LogMsg)
    (h : normalizePropertyName loc k = .ok (r, lg)) :
    lg = [] ∨ lg = [LogMsg.digitWarn loc] := by
  unfold normalizePropertyName at h
  cases hs : (replaceBadChars (stripLeadingUnderscores k)).toList with
  | nil => rw [hs] at h; cases h
  | cons c cs =>
    rw [hs] at h
    by_cases hd : c.isDigit
    · simp only [hd, if_pos] at h
      cases h
      exact Or.inr rfl
    · simp only [hd, Bool.false_eq_true, if_neg, not_false_iff] at h
      cases h
      exact Or.inl rfl

theorem normResult_eq (loc k r : String) (lg : List LogMsg)
    (h : normalizePropertyName loc k = .ok (r, lg)) : normResult loc k = r := by
  unfold normResult
  rw [h]

theorem normPairs_ok (loc : String) :
    ∀ es : List (String × Entry),
      (∀ p ∈ es, ∃ r lg, normalizePropertyName loc p.1 = .ok (r, lg)) →
      ∃ logs, normPairs loc es = .ok (es.map (fun p => (normResult loc p.1, p.2)), logs) ∧
        ∀ msg ∈ logs, msg.level = Level.warning → ∃ l2, msg = LogMsg.digitWarn l2 := by
  intro es
  induction es with
  | nil => intro _; exact ⟨[], rfl, by intro msg h; cases h⟩
  | cons p rest ih =>
    intro h
    obtain ⟨r, lg, hp⟩ := h p (List.mem_cons_self _ _)
    obtain ⟨logs1, hrest, hw1⟩ := ih fun q hq => h q (List.mem_cons_of_mem _ hq)
    obtain ⟨k, v⟩ := p
    refine ⟨lg ++ (if r ≠ k then [LogMsg.renamedDebug loc k r] else []) ++ logs1, ?_, ?_⟩
    · simp only [List.map_cons]
      rw [normResult_eq loc k r lg hp]
      simp only [normPairs, hp, hrest]
    · intro msg hmsg hlev
      simp only [List.mem_append, List.mem_ite_nil_right] at hmsg
      rcases hmsg with (hmsg | hmsg) | hmsg
      · rcases normalizePropertyName_logs loc k r lg hp with h0 | h0
        · rw [h0] at hmsg; cases hmsg
        · rw [h0] at hmsg
          simp only [List.mem_singleton] at hmsg
          exact ⟨loc, hmsg⟩
      · obtain ⟨-, hmem⟩ := hmsg
        rw [List.mem_singleton] at hmem
        rw [hmem] at hlev
        simp [LogMsg.level] at hlev
      · exact hw1 msg hmsg hlev

/-- claim C3 (amended): when every key of a MapNode normalizes (no
`IndexError`), the normalizer pass succeeds — no error is raised — and a
collision of two normalized keys is resolved last-write-wins in insertion
order (the looked-up value of each final key is the value of the *last*
original entry normalizing to it); but the only warning-level messages ever
logged are the digit-prefix warnings — the collision itself is *not*
logged as a warning. -/
theorem c3_normalizer_lastwrite (loc : String) (es : List (String × Entry))
    (h : ∀ p ∈ es, ∃ r lg, normalizePropertyName loc p.1 = .ok (r, lg)) :
    ∃ es1 logs,
      toPythonPropertyNameRule loc (.entryDict es) =
        .ok (some (.entryDict es1), logs) ∧
      (∀ m, lookupKey es1 m =
        es.foldl (fun a p => if normResult loc p.1 = m then some p.2 else a) none) ∧
      (∀ msg ∈ logs, msg.level = Level.warning → ∃ l2, msg = LogMsg.digitWarn l2) := by
  obtain ⟨logs0, hnorm, hw⟩ := normPairs_ok loc es h
  refine ⟨dictComprehension (es.map fun p => (normResult loc p.1, p.2)),
    .checkingDebug loc :: logs0, ?_, ?_, ?_⟩
  · simp only [toPythonPropertyNameRule, hnorm]
  · intro m
    rw [lookupKey_dictComprehension, List.foldl_map]
  · intro msg hmsg hlev
    rcases List.mem_cons.mp hmsg with rfl | hmsg
    · simp [LogMsg.level] at hlev
    · exact hw msg hmsg hlev

/-- Witness for `c3_normalizer_lastwrite`: the two-key collision dict
`{"a-b": X, "a_b": Y}` (both keys normalize to `a_b`). -/
theorem c3_normalizer_lastwrite_witness :
    ∃ es1 logs,
      toPythonPropertyNameRule ".<root>"
          (.entryDict [("a-b", .leaf (.obj "X")), ("a_b", .leaf (.obj "Y"))]) =
        .ok (some (.entryDict es1), logs) ∧
      (∀ m, lookupKey es1 m =
        [(("a-b" : String), Entry.leaf (.obj "X")), ("a_b", Entry.leaf (.obj "Y"))].foldl
          (fun a p => if normResult ".<root>" p.1 = m then some p.2 else a) none) ∧
      (∀ msg ∈ logs, msg.level = Level.warning → ∃ l2, msg = LogMsg.digitWarn l2) :=
  c3_normalizer_lastwrite ".<root>"
    [("a-b", .leaf (.obj "X")), ("a_b", .leaf (.obj "Y"))]
    (by
      intro p hp
      fin_cases hp
      · exact ⟨"a_b", [], rfl⟩
      · exact ⟨"a_b", [], rfl⟩)

/-- counterexample to claim C3: on the colliding MapNode
`{"a-b": X, "a_b": Y}` the normalizer pass overwrites last-write-wins and
raises no error, but the emitted log contains *no* warning-level message at
all (only two debug messages) — the claimed collision warning is never
logged. -/
theorem c3_counterexample :
    middlewareE toPythonPropertyNameRule 2
        (.entryDict [("a-b", .leaf (.obj "X")), ("a_b", .leaf (.obj "Y"))]) =
      .ok (.entryDict [("a_b", .leaf (.obj "Y"))],
        [.checkingDebug ".<root>", .renamedDebug ".<root>" "a-b" "a_b"]) ∧
    ∀ msg ∈ [LogMsg.checkingDebug ".<root>",
        LogMsg.renamedDebug ".<root>" "a-b" "a_b"],
      msg.level ≠ Level.warning :=
  ⟨rfl, by decide⟩

/-! ## Claim C9: underscore-only keys crash the normalizer -/

theorem normalizePropertyName_error_eq (loc k : String) (e : Exc)
    (h : normalizePropertyName loc k = .error e) : e = .indexError := by
  unfold normalizePropertyName at h
  cases hs : (replaceBadChars (stripLeadingUnderscores k)).toList with
  | nil =>
    rw [hs] at h
    cases h
    rfl
  | cons c cs =>
    rw [hs] at h
    by_cases hd : c.isDigit <;> simp [hd] at h

theorem normalizePropertyName_underscores (loc k : String)
    (h : (k.toList.all fun c => c = '_') = true) :
    normalizePropertyName loc k = .error .indexError := by
  unfold normalizePropertyName
  have hstrip : (stripLeadingUnderscores k).toList = [] := by
    unfold stripLeadingUnderscores
    rw [show (String.mk (k.toList.dropWhile fun c => c = '_')).toList
        = k.toList.dropWhile (fun c => c = '_') from rfl]
    rw [List.dropWhile_eq_nil_iff]
    intro x hx
    simp only [List.all_eq_true] at h
    exact h x hx
  have : (replaceBadChars (stripLeadingUnderscores k)).toList = [] := by
    unfold replaceBadChars
    rw [show ∀ l : List Char, (String.mk l).toList = l from fun _ => rfl]
    rw [show (stripLeadingUnderscores k).toList.map _ = ([] : List Char).map _ from by
      rw [hstrip]]
    rfl
  rw [this]

theorem normPairs_error (loc : String) :
    ∀ es : List (String × Entry),
      (∃ p ∈ es, normalizePropertyName loc p.1 = .error .indexError) →
      normPairs loc es = .error .indexError := by
  intro es
  induction es with
  | nil => rintro ⟨p, hp, _⟩; cases hp
  | cons q rest ih =>
    rintro ⟨p, hp, herr⟩
    obtain ⟨k, v⟩ := q
    cases hn : normalizePropertyName loc k with
    | error e =>
      rw [normalizePropertyName_error_eq loc k e hn] at hn
      simp [normPairs, hn]
    | ok rl =>
      rcases List.mem_cons.mp hp with rfl | hp
      · rw [hn] at herr; cases herr
      · obtain ⟨r, lg⟩ := rl
        simp only [normPairs, hn]
        rw [ih ⟨p, hp, herr⟩]

/-- claim C9: a MapNode key consisting only of underscores (more generally,
any key whose leading-underscore strip leaves the empty string) makes
`_normalize_property_name` raise `IndexError` at `s[0]`; the normalization
pass, and with it the whole construction, aborts with that error. -/
theorem c9_underscore_key_crash (loc : String) (es : List (String × Entry))
    (k : String) (v : Entry) (hmem : (k, v) ∈ es)
    (hund : (k.toList.all fun c => c = '_') = true) :
    toPythonPropertyNameRule loc (.entryDict es) = .error .indexError ∧
    (∀ fuel, middlewareE toPythonPropertyNameRule fuel (.entryDict es) =
      .error .indexError) ∧
    (∀ fuel loaders, rmRun [] loaders fuel (.entryDict es) = .error .indexError) := by
  have hrule : toPythonPropertyNameRule loc (.entryDict es) = .error .indexError := by
    simp only [toPythonPropertyNameRule]
    rw [normPairs_error loc es
      ⟨(k, v), hmem, normalizePropertyName_underscores loc k hund⟩]
  have hrule2 : toPythonPropertyNameRule ".<root>" (.entryDict es) =
      .error .indexError := by
    simp only [toPythonPropertyNameRule]
    rw [normPairs_error ".<root>" es
      ⟨(k, v), hmem, normalizePropertyName_underscores ".<root>" k hund⟩]
  refine ⟨hrule, fun fuel => ?_, fun fuel loaders => ?_⟩
  · unfold middlewareE
    simp [Entry.isNode, hrule2]
  · unfold rmRun applyMiddlewares
    simp only
    rw [show middlewareE toPythonPropertyNameRule fuel (.entryDict es) =
        .error .indexError from by unfold middlewareE; simp [Entry.isNode, hrule2]]

/-- Witness for `c9_underscore_key_crash`: the key `"___"`. -/
theorem c9_underscore_key_crash_witness :
    toPythonPropertyNameRule "<root>"
        (.entryDict [("___", Entry.leaf (.obj "X"))]) = .error .indexError ∧
    (∀ fuel, middlewareE toPythonPropertyNameRule fuel
        (.entryDict [("___", Entry.leaf (.obj "X"))]) = .error .indexError) ∧
    (∀ fuel loaders, rmRun [] loaders fuel
        (.entryDict [("___", Entry.leaf (.obj "X"))]) = .error .indexError) :=
  c9_underscore_key_crash "<root>" [("___", Entry.leaf (.obj "X"))]
    "___" (Entry.leaf (.obj "X")) (List.mem_singleton.mpr rfl) (by decide)

/-! ## Claim C5: loader fallback vs. fatal loader errors -/

/-- claim C5: (i) a fallback-wrapped loader never raises: on an inner
exception it logs at error level and returns the configured fallback value;
(ii) a pipeline all of whose loaders are fallback-wrapped never raises;
(iii) a non-wrapped loader that raises (reached after the loaders before it
declined) aborts the pipeline with the *original* exception re-raised after
a critical log carrying the location and the offending value. -/
theorem c5_loader_fallback :
    (∀ (fb : Leafval) (f : Loader) (o : Leafval),
      ∃ r logs, fallbackLoader fb f o = (.ok r, logs)) ∧
    (∀ (fb : Leafval) (f : Loader) (o : Leafval) (e : Exc) (logs : List LogMsg),
      f o = (.error e, logs) →
      fallbackLoader fb f o = (.ok (some fb), logs ++ [.loadFail o e]) ∧
        (LogMsg.loadFail o e).level = Level.error) ∧
    (∀ (loaders : List Loader) (loc : String) (o : Leafval),
      (∀ ld ∈ loaders, ∃ fb g, ld = fallbackLoader fb g) →
      ∃ r logs, runLoaders loaders loc o = (.ok r, logs)) ∧
    (∀ (pre : List Loader) (ld : Loader) (post : List Loader) (loc : String)
      (o : Leafval) (e : Exc) (logs : List LogMsg),
      (∀ l ∈ pre, ∃ lgs, l o = (.ok none, lgs)) →
      ld o = (.error e, logs) →
      ∃ logsAll, runLoaders (pre ++ ld :: post) loc o = (.error e, logsAll) ∧
        LogMsg.loadCritical loc o ∈ logsAll) := by
  have hnever : ∀ (fb : Leafval) (f : Loader) (o : Leafval),
      ∃ r logs, fallbackLoader fb f o = (.ok r, logs) := by
    intro fb f o
    unfold fallbackLoader
    cases hf : f o with
    | mk res logs =>
      cases res with
      | error e => exact ⟨some fb, logs ++ [.loadFail o e], rfl⟩
      | ok r => exact ⟨r, logs, rfl⟩
  refine ⟨hnever, ?_, ?_, ?_⟩
  · intro fb f o e logs hf
    unfold fallbackLoader
    rw [hf]
    exact ⟨rfl, rfl⟩
  · intro loaders loc o hall
    induction loaders with
    | nil => exact ⟨o, [.noLoaderWarn loc o], rfl⟩
    | cons ld rest ih =>
      obtain ⟨fb, g, hld⟩ := hall ld (List.mem_cons_self _ _)
      obtain ⟨r, logs, hok⟩ := hnever fb g o
      rw [← hld] at hok
      cases r with
      | some rv =>
        exact ⟨rv, logs, by unfold runLoaders; rw [hok]⟩
      | none =>
        obtain ⟨r1, logs1, hrest⟩ := ih fun l hl => hall l (List.mem_cons_of_mem _ hl)
        exact ⟨r1, logs ++ logs1, by unfold runLoaders; rw [hok, hrest]⟩
  · intro pre ld post loc o e logs hpre hld
    induction pre with
    | nil =>
      refine ⟨logs ++ [.loadCritical loc o], ?_, by simp⟩
      simp only [List.nil_append]
      unfold runLoaders
      rw [hld]
    | cons l pre1 ih =>
      obtain ⟨lgs, hl⟩ := hpre l (List.mem_cons_self _ _)
      obtain ⟨logsAll, hrun, hmem⟩ := ih fun q hq => hpre q (List.mem_cons_of_mem _ hq)
      refine ⟨lgs ++ logsAll, ?_, by simp [hmem]⟩
      simp only [List.cons_append]
      unfold runLoaders
      rw [hl, hrun]

/-- Witness for `c5_loader_fallback`: a raising loader wrapped with fallback
`"d"` returns the fallback; unwrapped at the head of a pipeline it aborts
with the original exception. -/
theorem c5_loader_fallback_witness :
    (∃ r logs, fallbackLoader (.obj "d")
        (fun _ => (.error (.raised "boom"), [])) (.obj "o") = (.ok r, logs)) ∧
    fallbackLoader (.obj "d") (fun _ => (.error (.raised "boom"), [])) (.obj "o") =
      (.ok (some (.obj "d")), [.loadFail (.obj "o") (.raised "boom")]) ∧
    (∃ r logs, runLoaders
        [fallbackLoader (.obj "d") (fun _ => (.error (.raised "boom"), []))]
        "root" (.obj "o") = (.ok r, logs)) ∧
    (∃ logsAll, runLoaders [fun _ => (.error (.raised "boom"), [])] "root" (.obj "o") =
        (.error (.raised "boom"), logsAll) ∧
      LogMsg.loadCritical "root" (.obj "o") ∈ logsAll) :=
  ⟨c5_loader_fallback.1 (.obj "d") _ (.obj "o"),
    (c5_loader_fallback.2.1 (.obj "d") _ (.obj "o") (.raised "boom") [] rfl).1,
    c5_loader_fallback.2.2.1 _ "root" (.obj "o")
      (by
        intro ld hld
        rw [List.mem_singleton] at hld
        exact ⟨.obj "d", fun _ => (.error (.raised "boom"), []), hld⟩),
    c5_loader_fallback.2.2.2 [] _ [] "root" (.obj "o") (.raised "boom") []
      (by intro l hl; cases hl) rfl⟩

/-! ## Claim C4: the extension-strip rule is not idempotent in general -/

/-- The extension pattern `txt` (`re.fullmatch("txt", ext)`). -/
def isTxt (e : String) : Bool := e = "txt"

/-- counterexample to claim C4: with pattern `txt`, the key `a.txt.txt` is
stripped to `a.txt` by one pass (only the final extension is removed) and to
`a` by a second pass — applying the rule twice differs from applying it
once. -/
theorem c4_counterexample :
    middlewareE (removeKnownExtensionsRule isTxt) 3
        (.entryDict [("a.txt.txt", .leaf (.obj "P"))]) =
      .ok (.entryDict [("a.txt", .leaf (.obj "P"))], []) ∧
    middlewareE (removeKnownExtensionsRule isTxt) 3
        (.entryDict [("a.txt", .leaf (.obj "P"))]) =
      .ok (.entryDict [("a", .leaf (.obj "P"))], []) ∧
    Entry.entryDict [("a", .leaf (.obj "P"))] ≠
      .entryDict [("a.txt", .leaf (.obj "P"))] :=
  ⟨rfl, rfl, by simp⟩

mutual

/-- No key of any dict node in the tree still matches `name.ext` with a
known extension — i.e. a further strip pass has nothing to do. -/
def noStripKeys (em : String → Bool) : Entry → Bool
  | .entryDict es =>
    (es.all fun p => (stripMatch em p.1).isNone) && noStripPairs em es
  | .entryList es => noStripElems em es
  | _ => true

/-- `noStripKeys` over a dict's values. -/
def noStripPairs (em : String → Bool) : List (String × Entry) → Bool
  | [] => true
  | (_, v) :: rest => noStripKeys em v && noStripPairs em rest

/-- `noStripKeys` over a list's elements. -/
def noStripElems (em : String → Bool) : List Entry → Bool
  | [] => true
  | v :: rest => noStripKeys em v && noStripElems em rest

end

theorem stripStep_nomatch (em : String → Bool) (m : List (String × Entry))
    (k : String) (h : stripMatch em k = none) : stripStep em m k = m := by
  unfold stripStep
  rw [h]

theorem stripPass_noStrip (em : String → Bool) (es : List (String × Entry))
    (h : (es.all fun p => (stripMatch em p.1).isNone) = true) :
    stripPass em es = es := by
  unfold stripPass
  have hkeys : ∀ k ∈ es.map Prod.fst, stripMatch em k = none := by
    intro k hk
    obtain ⟨p, hp, rfl⟩ := List.mem_map.mp hk
    rw [List.all_eq_true] at h
    simpa [Option.isNone_iff_eq_none] using h p hp
  generalize es.map Prod.fst = ks at hkeys
  induction ks with
  | nil => rfl
  | cons k rest ih =>
    rw [List.foldl_cons, stripStep_nomatch em es k (hkeys k (List.mem_cons_self _ _))]
    exact ih fun q hq => hkeys q (List.mem_cons_of_mem _ hq)

theorem mwStepPairs_noStrip (em : String → Bool) (loc : String) :
    ∀ es, noStripPairs em es = true →
      mwStepPairs (removeKnownExtensionsRule em) loc es = .ok (es, []) := by
  intro es
  induction es with
  | nil => intro _; rfl
  | cons p rest ih =>
    intro h
    obtain ⟨k, v⟩ := p
    simp only [noStripPairs, Bool.and_eq_true] at h
    have hrest := ih h.2
    cases v with
    | entryDict ds =>
      have hkeys : (ds.all fun p => (stripMatch em p.1).isNone) = true := by
        have := h.1
        simp only [noStripKeys, Bool.and_eq_true] at this
        exact this.1
      simp only [mwStepPairs, Entry.isNode, if_pos, removeKnownExtensionsRule]
      rw [stripPass_noStrip em ds hkeys, hrest]
      rfl
    | entryList ls =>
      simp only [mwStepPairs, Entry.isNode, if_pos, removeKnownExtensionsRule]
      rw [hrest]
      rfl
    | leaf lv =>
      simp only [mwStepPairs, Entry.isNode, Bool.false_eq_true, if_neg, not_false_iff]
      rw [hrest]
    | pynone =>
      simp only [mwStepPairs, Entry.isNode, Bool.false_eq_true, if_neg, not_false_iff]
      rw [hrest]

theorem mwStepElems_noStrip (em : String → Bool) (loc : String) :
    ∀ es i, noStripElems em es = true →
      mwStepElems (removeKnownExtensionsRule em) loc i es = .ok (es, []) := by
  intro es
  induction es with
  | nil => intro i _; rfl
  | cons v rest ih =>
    intro i h
    simp only [noStripElems, Bool.and_eq_true] at h
    have hrest := ih (i + 1) h.2
    cases v with
    | entryDict ds =>
      have hkeys : (ds.all fun p => (stripMatch em p.1).isNone) = true := by
        have := h.1
        simp only [noStripKeys, Bool.and_eq_true] at this
        exact this.1
      simp only [mwStepElems, Entry.isNode, if_pos, removeKnownExtensionsRule]
      rw [stripPass_noStrip em ds hkeys, hrest]
      rfl
    | entryList ls =>
      simp only [mwStepElems, Entry.isNode, if_pos, removeKnownExtensionsRule]
      rw [hrest]
      rfl
    | leaf lv =>
      simp only [mwStepElems, Entry.isNode, Bool.false_eq_true, if_neg, not_false_iff]
      rw [hrest]
    | pynone =>
      simp only [mwStepElems, Entry.isNode, Bool.false_eq_true, if_neg, not_false_iff]
      rw [hrest]

theorem mwDescend_noStrip (em : String → Bool) (n : Nat)
    (ih : ∀ loc t, noStripKeys em t = true →
      mwWalkE (removeKnownExtensionsRule em) n loc t = .ok (t, [])) :
    (∀ loc es, noStripPairs em es = true →
      mwDescendPairs (mwWalkE (removeKnownExtensionsRule em) n) loc es = .ok (es, [])) ∧
    (∀ loc i es, noStripElems em es = true →
      mwDescendElems (mwWalkE (removeKnownExtensionsRule em) n) loc i es = .ok (es, [])) := by
  constructor
  · intro loc es
    induction es with
    | nil => intro _; rfl
    | cons p rest ihes =>
      intro h
      obtain ⟨k, v⟩ := p
      simp only [noStripPairs, Bool.and_eq_true] at h
      by_cases hv : v.isNode
      · simp only [mwDescendPairs, hv, if_pos]
        rw [ih _ v h.1, ihes h.2]
        rfl
      · simp only [mwDescendPairs, hv, Bool.false_eq_true, if_neg, not_false_iff]
        rw [ihes h.2]
  · intro loc i es
    induction es generalizing i with
    | nil => intro _; rfl
    | cons v rest ihes =>
      intro h
      simp only [noStripElems, Bool.and_eq_true] at h
      by_cases hv : v.isNode
      · simp only [mwDescendElems, hv, if_pos]
        rw [ih _ v h.1, ihes (i + 1) h.2]
        rfl
      · simp only [mwDescendElems, hv, Bool.false_eq_true, if_neg, not_false_iff]
        rw [ihes (i + 1) h.2]

theorem mwWalkE_noStrip (em : String → Bool) :
    ∀ fuel loc t, noStripKeys em t = true →
      mwWalkE (removeKnownExtensionsRule em) fuel loc t = .ok (t, []) := by
  intro fuel
  induction fuel with
  | zero => intro loc t _; rfl
  | succ n ih =>
    intro loc t h
    cases t with
    | entryDict es =>
      simp only [noStripKeys, Bool.and_eq_true] at h
      simp only [mwWalkE]
      rw [mwStepPairs_noStrip em loc es h.2]
      simp only
      rw [(mwDescend_noStrip em n ih).1 loc es h.2]
      rfl
    | entryList es =>
      simp only [noStripKeys] at h
      simp only [mwWalkE]
      rw [mwStepElems_noStrip em loc es 0 h]
      simp only
      rw [(mwDescend_noStrip em n ih).2 loc 0 es h]
      rfl
    | leaf v => rfl
    | pynone => rfl

theorem middlewareE_ok_isNode (rule : RuleE) (fuel : Nat) (t t1 : Entry)
    (logs : List LogMsg) (h : middlewareE rule fuel t = .ok (t1, logs)) :
    t1.isNode = true := by
  unfold middlewareE at h
  cases hh : (if t.isNode then
      match rule ".<root>" t with
      | Except.error e => Except.error e
      | Except.ok (r, logs) => Except.ok (r.getD t, logs)
    else Except.ok (t, ([] : List LogMsg))) with
  | error e => rw [hh] at h; cases h
  | ok p =>
    rw [hh] at h
    obtain ⟨t0, logs0⟩ := p
    cases hw : (if t0.isNode then mwWalkE rule fuel "<root>" t0
        else Except.ok (t0, ([] : List LogMsg))) with
    | error e => simp only [hw] at h; cases h
    | ok q =>
      simp only [hw] at h
      obtain ⟨t2, logs2⟩ := q
      by_cases hn : t2.isNode
      · simp only [hn, if_pos] at h
        cases h
        exact hn
      · simp only [hn, Bool.false_eq_true, if_neg, not_false_iff] at h
        cases h

/-- claim C4 (amended): applying the extension-strip rule twice equals
applying it once *provided* no key of the once-stripped tree still matches
`name.ext` with a known extension; a stem that itself still carries a known
extension (such as `a.txt.txt → a.txt`) is stripped again by a second pass. -/
theorem c4_strip_conditional_idempotent (em : String → Bool) (fuel : Nat)
    (t t1 : Entry) (logs : List LogMsg)
    (honce : middlewareE (removeKnownExtensionsRule em) fuel t = .ok (t1, logs))
    (hns : noStripKeys em t1 = true) :
    middlewareE (removeKnownExtensionsRule em) fuel t1 = .ok (t1, []) := by
  have hnode := middlewareE_ok_isNode _ fuel t t1 logs honce
  cases t1 with
  | entryDict es =>
    have hns2 := hns
    simp only [noStripKeys, Bool.and_eq_true] at hns2
    have hrule : removeKnownExtensionsRule em ".<root>" (Entry.entryDict es) =
        .ok (some (.entryDict es), []) := by
      simp only [removeKnownExtensionsRule]
      rw [stripPass_noStrip em es hns2.1]
    unfold middlewareE
    simp [Entry.isNode, hrule,
      mwWalkE_noStrip em fuel "<root>" (Entry.entryDict es) hns]
  | entryList es =>
    have hrule : removeKnownExtensionsRule em ".<root>" (Entry.entryList es) =
        .ok (none, []) := rfl
    unfold middlewareE
    simp [Entry.isNode, hrule,
      mwWalkE_noStrip em fuel "<root>" (Entry.entryList es) hns]
  | leaf v => simp [Entry.isNode] at hnode
  | pynone => simp [Entry.isNode] at hnode

/-- Witness for `c4_strip_conditional_idempotent`: `{"a.txt": v}` strips to
`{"a": v}`, whose keys no longer match, so a second pass leaves it
unchanged. -/
theorem c4_strip_conditional_idempotent_witness :
    middlewareE (removeKnownExtensionsRule isTxt) 2
        (.entryDict [("a", .leaf (.obj "P"))]) =
      .ok (.entryDict [("a", .leaf (.obj "P"))], []) :=
  c4_strip_conditional_idempotent isTxt 2
    (.entryDict [("a.txt", .leaf (.obj "P"))])
    (.entryDict [("a", .leaf (.obj "P"))]) [] rfl rfl

/-! ## Claim C10: insertion-order effect of the extension-strip rule -/

theorem hasKey_append (a b : List (String × Entry)) (k : String) :
    hasKey (a ++ b) k = (hasKey a k || hasKey b k) := by
  unfold hasKey
  exact List.any_append

theorem hasKey_eq_false_iff (a : List (String × Entry)) (k : String) :
    hasKey a k = false ↔ ∀ p ∈ a, p.1 ≠ k := by
  unfold hasKey
  rw [List.any_eq_false]
  constructor
  · intro h p hp
    have := h p hp
    simpa using this
  · intro h p hp
    simpa using h p hp

theorem lookupKey_append (a b : List (String × Entry)) (m : String) :
    lookupKey (a ++ b) m = (lookupKey a m).or (lookupKey b m) := by
  unfold lookupKey
  rw [List.find?_append]
  cases a.find? fun p => p.1 = m <;> simp

theorem removeKey_append (a b : List (String × Entry)) (k : String) :
    removeKey (a ++ b) k = removeKey a k ++ removeKey b k := by
  unfold removeKey
  exact List.filter_append a b

theorem removeKey_of_not_hasKey (a : List (String × Entry)) (k : String)
    (h : hasKey a k = false) : removeKey a k = a := by
  unfold removeKey
  rw [List.filter_eq_self]
  intro p hp
  simpa using (hasKey_eq_false_iff a k).mp h p hp

theorem insertOverwrite_of_not_hasKey (a : List (String × Entry)) (k : String)
    (v : Entry) (h : hasKey a k = false) : insertOverwrite a k v = a ++ [(k, v)] := by
  unfold insertOverwrite
  rw [h]
  rfl

theorem hasKey_eq_false_of_not_mem_keys (a : List (String × Entry)) (k : String)
    (h : k ∉ a.map Prod.fst) : hasKey a k = false := by
  rw [hasKey_eq_false_iff]
  intro p hp hpk
  exact h (List.mem_map.mpr ⟨p, hp, hpk⟩)

theorem removeKey_cons_self (k : String) (v : Entry) (l : List (String × Entry)) :
    removeKey ((k, v) :: l) k = removeKey l k := by
  unfold removeKey
  rw [List.filter_cons]
  simp

theorem stripPass_fresh_go (em : String → Bool) :
    ∀ (suf pre post : List (String × Entry)),
      ((pre ++ suf ++ post).map Prod.fst).Nodup →
      (∀ p ∈ suf, ∀ n, stripMatch em p.1 = some n →
        hasKey (pre ++ suf ++ post) n = false) →
      (suf.filterMap fun p => stripMatch em p.1).Nodup →
      (suf.map Prod.fst).foldl (stripStep em) (pre ++ suf ++ post) =
        pre ++ (suf.filter fun p => (stripMatch em p.1).isNone) ++
          (post ++ suf.filterMap fun p => (stripMatch em p.1).map fun n => (n, p.2)) := by
  intro suf
  induction suf with
  | nil => intro pre post _ _ _; simp
  | cons q suf1 ih =>
    intro pre post hnd hfresh hpair
    obtain ⟨k, v⟩ := q
    simp only [List.map_cons, List.foldl_cons]
    cases hm : stripMatch em k with
    | none =>
      rw [stripStep_nomatch em _ k hm]
      have hstate : pre ++ ((k, v) :: suf1) ++ post =
          (pre ++ [(k, v)]) ++ suf1 ++ post := by simp
      rw [hstate]
      rw [ih (pre ++ [(k, v)]) post (by rw [← hstate]; exact hnd)
        (by
          intro p hp n hn
          rw [← hstate]
          exact hfresh p (List.mem_cons_of_mem _ hp) n hn)
        (by
          simp only [List.filterMap_cons, hm] at hpair
          exact hpair)]
      simp [List.filter_cons, hm]
    | some n =>
      -- dissect the nodup hypothesis
      have hndk : ((pre ++ ((k, v) :: suf1) ++ post).map Prod.fst).Nodup := hnd
      rw [List.map_append, List.map_append, List.map_cons] at hndk
      have hkpre : k ∉ pre.map Prod.fst := by
        rcases List.nodup_append.mp hndk with ⟨hl, _, hdisj⟩
        rcases List.nodup_append.mp hl with ⟨_, _, hdisj2⟩
        intro hk
        exact hdisj2 hk (List.mem_cons_self _ _)
      have hksuf : k ∉ suf1.map Prod.fst := by
        rcases List.nodup_append.mp hndk with ⟨hl, _, _⟩
        rcases List.nodup_append.mp hl with ⟨_, hc, _⟩
        exact (List.nodup_cons.mp hc).1
      have hkpost : k ∉ post.map Prod.fst := by
        rcases List.nodup_append.mp hndk with ⟨_, _, hdisj⟩
        intro hk
        exact hdisj (List.mem_append.mpr (Or.inr (List.mem_cons_self _ _))) hk
      -- the popped value is v
      have hlook : lookupKey (pre ++ ((k, v) :: suf1) ++ post) k = some v := by
        rw [lookupKey_append, lookupKey_append]
        rw [lookupKey_eq_none_of_not_hasKey pre k (hasKey_eq_false_of_not_mem_keys _ _ hkpre)]
        rw [lookupKey_cons]
        simp
      -- removal leaves the rest
      have hrem : removeKey (pre ++ ((k, v) :: suf1) ++ post) k =
          pre ++ suf1 ++ post := by
        rw [removeKey_append, removeKey_append]
        rw [removeKey_of_not_hasKey pre k (hasKey_eq_false_of_not_mem_keys _ _ hkpre)]
        rw [removeKey_of_not_hasKey post k (hasKey_eq_false_of_not_mem_keys _ _ hkpost)]
        have : removeKey ((k, v) :: suf1) k = suf1 := by
          rw [removeKey_cons_self]
          exact removeKey_of_not_hasKey suf1 k (hasKey_eq_false_of_not_mem_keys _ _ hksuf)
        rw [this]
      -- the stem is fresh in the reduced state
      have hnfresh : hasKey (pre ++ suf1 ++ post) n = false := by
        have hbig := hfresh (k, v) (List.mem_cons_self _ _) n hm
        rw [hasKey_eq_false_iff] at hbig ⊢
        intro p hp
        apply hbig
        simp only [List.mem_append, List.mem_cons] at hp ⊢
        tauto
      have hstep : stripStep em (pre ++ ((k, v) :: suf1) ++ post) k =
          pre ++ suf1 ++ (post ++ [(n, v)]) := by
        simp only [stripStep, hm, hlook, hrem]
        rw [insertOverwrite_of_not_hasKey _ _ _ hnfresh]
        simp
      rw [hstep]
      -- establish the IH hypotheses for the extended post
      have hnmem : n ∉ (pre ++ suf1 ++ post).map Prod.fst := by
        intro hmem
        obtain ⟨p, hp, hpn⟩ := List.mem_map.mp hmem
        have := (hasKey_eq_false_iff _ n).mp hnfresh p hp
        exact this hpn
      have hnd1 : ((pre ++ suf1 ++ (post ++ [(n, v)])).map Prod.fst).Nodup := by
        have hX : ((pre ++ suf1 ++ post).map Prod.fst).Nodup := by
          have hsub : List.Sublist ((pre ++ suf1 ++ post).map Prod.fst)
              ((pre ++ ((k, v) :: suf1) ++ post).map Prod.fst) := by
            simp only [List.map_append, List.map_cons]
            exact ((List.Sublist.refl _).append
              (List.sublist_cons_self _ _)).append (List.Sublist.refl _)
          exact hnd.sublist hsub
        have : (pre ++ suf1 ++ (post ++ [(n, v)])).map Prod.fst =
            (pre ++ suf1 ++ post).map Prod.fst ++ [n] := by simp
        rw [this]
        rw [List.nodup_append]
        exact ⟨hX, List.nodup_singleton n, by
          intro x hx hxn
          rw [List.mem_singleton] at hxn
          exact absurd (hxn ▸ hx) hnmem⟩
      have hfresh1 : ∀ p ∈ suf1, ∀ m, stripMatch em p.1 = some m →
          hasKey (pre ++ suf1 ++ (post ++ [(n, v)])) m = false := by
        intro p hp m hmm
        have hbig := hfresh p (List.mem_cons_of_mem _ hp) m hmm
        have hmn : m ≠ n := by
          simp only [List.filterMap_cons, hm] at hpair
          have hnotin := (List.nodup_cons.mp hpair).1
          intro heq
          exact hnotin (heq ▸ List.mem_filterMap.mpr ⟨p, hp, hmm⟩)
        rw [hasKey_eq_false_iff] at hbig ⊢
        intro q hq
        simp only [List.mem_append, List.mem_cons, List.mem_singleton] at hq
        rcases hq with (hq | hq) | (hq | hq)
        · exact hbig q (by simp [hq])
        · exact hbig q (by simp [hq])
        · exact hbig q (by simp [hq])
        · rcases hq with rfl | hq
          · simpa using Ne.symm hmn
          · cases hq
      have hpair1 : (suf1.filterMap fun p => stripMatch em p.1).Nodup := by
        simp only [List.filterMap_cons, hm] at hpair
        exact (List.nodup_cons.mp hpair).2
      rw [ih pre (post ++ [(n, v)]) hnd1 hfresh1 hpair1]
      simp [List.filter_cons, List.filterMap_cons, hm]

/-- claim C10 (amended): each key whose extension is stripped is removed and
re-inserted; the re-insertion appends at the end only when the stripped stem
is not already a key, so when all stems are fresh (distinct from every
original key and from each other) the resulting mapping is exactly the
non-renamed entries in original order followed by the renamed entries in
original order — renamed keys follow all non-renamed keys; when a stem
collides with an existing key, the existing position is kept instead. -/
theorem c10_strip_reorder (em : String → Bool) (es : List (String × Entry))
    (hnd : (es.map Prod.fst).Nodup)
    (hfresh : ∀ p ∈ es, ∀ n, stripMatch em p.1 = some n → hasKey es n = false)
    (hpair : (es.filterMap fun p => stripMatch em p.1).Nodup) :
    stripPass em es =
      (es.filter fun p => (stripMatch em p.1).isNone) ++
        (es.filterMap fun p => (stripMatch em p.1).map fun n => (n, p.2)) ∧
    ∀ loc, removeKnownExtensionsRule em loc (.entryDict es) =
      .ok (some (.entryDict
        ((es.filter fun p => (stripMatch em p.1).isNone) ++
          (es.filterMap fun p => (stripMatch em p.1).map fun n => (n, p.2)))), []) := by
  have hmain : stripPass em es =
      (es.filter fun p => (stripMatch em p.1).isNone) ++
        (es.filterMap fun p => (stripMatch em p.1).map fun n => (n, p.2)) := by
    unfold stripPass
    have := stripPass_fresh_go em es [] [] (by simpa using hnd)
      (by intro p hp n hn; simpa using hfresh p hp n hn)
      hpair
    simpa using this
  exact ⟨hmain, fun loc => by simp only [removeKnownExtensionsRule, hmain]⟩

/-- Witness for `c10_strip_reorder`: `{m: B, x.txt: X, y.txt: Y}` becomes
`{m: B, x: X, y: Y}` — both renamed keys moved after the untouched one. -/
theorem c10_strip_reorder_witness :
    stripPass isTxt [("m", Entry.leaf (.obj "B")), ("x.txt", Entry.leaf (.obj "X")),
        ("y.txt", Entry.leaf (.obj "Y"))] =
      [("m", Entry.leaf (.obj "B")), ("x", Entry.leaf (.obj "X")),
        ("y", Entry.leaf (.obj "Y"))] := by
  have h := (c10_strip_reorder isTxt
    [("m", Entry.leaf (.obj "B")), ("x.txt", Entry.leaf (.obj "X")),
      ("y.txt", Entry.leaf (.obj "Y"))]
    (by decide)
    (by
      intro p hp n hn
      fin_cases hp
      · rw [show stripMatch isTxt "m" = none from rfl] at hn
        cases hn
      · rw [show stripMatch isTxt "x.txt" = some "x" from rfl] at hn
        cases hn
        rfl
      · rw [show stripMatch isTxt "y.txt" = some "y" from rfl] at hn
        cases hn
        rfl)
    (by decide)).1
  rw [h]
  rfl

/-- counterexample to claim C10: in `{a: A, b: B, a.txt: C}` the key `a.txt`
is stripped to the already-present key `a`, whose original position is kept,
so the renamed key `a` ends up *before* the non-renamed key `b` instead of
moving to the end. -/
theorem c10_counterexample :
    middlewareE (removeKnownExtensionsRule isTxt) 2
        (.entryDict [("a", .leaf (.obj "A")), ("b", .leaf (.obj "B")),
          ("a.txt", .leaf (.obj "C"))]) =
      .ok (.entryDict [("a", .leaf (.obj "C")), ("b", .leaf (.obj "B"))], []) ∧
    Entry.entryDict [("a", .leaf (.obj "C")), ("b", .leaf (.obj "B"))] ≠
      .entryDict [("b", .leaf (.obj "B")), ("a", .leaf (.obj "C"))] :=
  ⟨rfl, by simp⟩

/-! ## Claim C7: the declaration artifact is rewritten exactly when stale -/

theorem takeWhile_append_stop (p : Char → Bool) :
    ∀ (l : List Char), (∀ c ∈ l, p c = true) → ∀ (a : Char) (rest : List Char),
      p a = false → (l ++ a :: rest).takeWhile p = l := by
  intro l
  induction l with
  | nil =>
    intro _ a rest ha
    simp [List.takeWhile_cons, ha]
  | cons c cs ih =>
    intro h a rest ha
    simp only [List.cons_append, List.takeWhile_cons, h c (List.mem_cons_self _ _)]
    rw [ih (fun d hd => h d (List.mem_cons_of_mem _ hd)) a rest ha]
    simp

theorem readIntegrity_write (checksum rest : List Char)
    (hnl : (checksum.all fun c => c ≠ '\n') = true)
    (hts : pyStrip checksum = checksum) :
    readIntegrityL (some (definitionFileWrite checksum rest)) = checksum := by
  have h1 : readIntegrityL (some (definitionFileWrite checksum rest)) =
      pyStrip ((('#' :: ' ' :: (checksum ++ '\n' :: rest)).takeWhile
        (fun c => c ≠ '\n')).drop 2) := rfl
  rw [h1]
  rw [show ('#' :: ' ' :: (checksum ++ '\n' :: rest)).takeWhile (fun c => c ≠ '\n') =
      '#' :: ' ' :: checksum from by
    simp only [List.takeWhile_cons]
    rw [show (decide ¬('#' = '\n')) = true from by decide,
      show (decide ¬(' ' = '\n')) = true from by decide]
    simp only [if_pos]
    rw [takeWhile_append_stop _ checksum
      (by intro c hc; simpa using (List.all_eq_true.mp hnl) c hc)
      '\n' rest (by decide)]]
  simp only [List.drop_succ_cons, List.drop_zero]
  exact hts

/-- claim C7: a write of the declaration artifact occurs exactly when the
artifact is missing or its stored integrity differs from the computed
checksum; when they agree the file is left untouched; a rewrite puts the new
checksum in the header line (readable back by `read_integrity`).  The two
hypotheses state that the checksum text is newline-free and
whitespace-trimmed, as an MD5 hex digest is. -/
theorem c7_regenerate_gating (prior : Option (List Char)) (checksum rest : List Char)
    (hnl : (checksum.all fun c => c ≠ '\n') = true)
    (hts : pyStrip checksum = checksum) :
    ((definitionFileUpdate prior checksum rest).1 = true ↔
      (prior = none ∨ readIntegrityL prior ≠ checksum)) ∧
    ((definitionFileUpdate prior checksum rest).1 = false →
      (definitionFileUpdate prior checksum rest).2 = prior) ∧
    ((definitionFileUpdate prior checksum rest).1 = true →
      readIntegrityL (definitionFileUpdate prior checksum rest).2 = checksum) := by
  cases prior with
  | none =>
    refine ⟨by simp [definitionFileUpdate], by simp [definitionFileUpdate], ?_⟩
    intro _
    exact readIntegrity_write checksum rest hnl hts
  | some s =>
    by_cases h : readIntegrityL (some s) = checksum
    · refine ⟨?_, ?_, ?_⟩
      · simp [definitionFileUpdate, h]
      · simp [definitionFileUpdate, h]
      · intro hw
        simp [definitionFileUpdate, h] at hw
    · refine ⟨?_, ?_, ?_⟩
      · simp [definitionFileUpdate, h]
      · intro hw
        simp [definitionFileUpdate, h] at hw
      · intro _
        have : (definitionFileUpdate (some s) checksum rest).2 =
            some (definitionFileWrite checksum rest) := by
          simp [definitionFileUpdate, h]
        rw [this]
        exact readIntegrity_write checksum rest hnl hts

/-- Witness for `c7_regenerate_gating`: a missing artifact with checksum
`"abc"` is written, and the written file reads back that integrity. -/
theorem c7_regenerate_gating_witness :
    ((definitionFileUpdate none ['a', 'b', 'c'] ['x']).1 = true ↔
      ((none : Option (List Char)) = none ∨
        readIntegrityL none ≠ ['a', 'b', 'c'])) ∧
    ((definitionFileUpdate none ['a', 'b', 'c'] ['x']).1 = false →
      (definitionFileUpdate none ['a', 'b', 'c'] ['x']).2 = none) ∧
    ((definitionFileUpdate none ['a', 'b', 'c'] ['x']).1 = true →
      readIntegrityL (definitionFileUpdate none ['a', 'b', 'c'] ['x']).2 =
        ['a', 'b', 'c']) :=
  c7_regenerate_gating none ['a', 'b', 'c'] ['x'] (by decide) (by decide)

/-! ## Claim C8: the scanner refines the per-file/per-directory spec -/

/-- The entry names of a directory, in `os.walk` order. -/
def namesOf : FS → List String
  | .dir files subs => files ++ subs.map Prod.fst

theorem map_overwrite_mem_self (l : List (String × Entry)) (k : String) (v : Entry)
    (hnd : (l.map Prod.fst).Nodup) (hmem : (k, v) ∈ l) :
    l.map (fun p => if p.1 = k then (k, v) else p) = l := by
  induction l with
  | nil => cases hmem
  | cons p rest ih =>
    simp only [List.map_cons, List.nodup_cons] at hnd
    rcases List.mem_cons.mp hmem with rfl | hmem
    · simp only [List.map_cons, if_pos]
      rw [map_overwrite_id rest k v
        (hasKey_eq_false_of_not_mem_keys _ _ hnd.1)]
    · have hpk : ¬ p.1 = k := by
        intro h
        exact hnd.1 (h ▸ List.mem_map.mpr ⟨(k, v), hmem, rfl⟩)
      simp only [List.map_cons, hpk, if_neg, not_false_iff]
      rw [ih hnd.2 hmem]

theorem insertOverwrite_mem_self (l : List (String × Entry)) (k : String) (v : Entry)
    (hnd : (l.map Prod.fst).Nodup) (hmem : (k, v) ∈ l) :
    insertOverwrite l k v = l := by
  unfold insertOverwrite
  rw [if_pos (by
    unfold hasKey
    rw [List.any_eq_true]
    exact ⟨(k, v), hmem, by simp⟩)]
  exact map_overwrite_mem_self l k v hnd hmem

mutual

theorem cleanScan_keys_sublist (ig : String → Bool) :
    ∀ (fs : FS) (rp : List String),
      List.Sublist ((cleanScan ig fs rp).map Prod.fst) (namesOf fs)
  | .dir files subs, rp => by
    unfold cleanScan namesOf
    rw [List.map_append]
    apply List.Sublist.append
    · rw [List.map_map]
      rw [show (Prod.fst ∘ fun f => (f, Entry.leaf (.pathv (rp ++ [f])))) = id from rfl]
      simp only [List.map_id]
      exact List.filter_sublist files
    · exact cleanDirs_keys_sublist ig subs rp

theorem cleanDirs_keys_sublist (ig : String → Bool) :
    ∀ (subs : List (String × FS)) (rp : List String),
      List.Sublist ((cleanDirs ig subs rp).map Prod.fst) (subs.map Prod.fst)
  | [], _ => by simp [cleanDirs]
  | (dn, dfs) :: rest, rp => by
    unfold cleanDirs
    by_cases hig : ig dn
    · simp only [hig, if_pos, List.map_cons]
      exact (cleanDirs_keys_sublist ig rest rp).cons dn
    · simp only [hig, Bool.false_eq_true, if_neg, not_false_iff, List.map_cons]
      exact (cleanDirs_keys_sublist ig rest rp).cons₂ dn

end

theorem wfDirs_mem (subs : List (String × FS)) (h : FS.wfDirs subs = true) :
    ∀ p ∈ subs, FS.wf p.2 = true := by
  induction subs with
  | nil => intro p hp; cases hp
  | cons q rest ih =>
    obtain ⟨dn, dfs⟩ := q
    simp only [FS.wfDirs, Bool.and_eq_true] at h
    intro p hp
    rcases List.mem_cons.mp hp with rfl | hp
    · exact h.1
    · exact ih h.2 p hp

theorem wf_names_nodup (files : List String) (subs : List (String × FS))
    (h : FS.wf (.dir files subs) = true) :
    (files ++ subs.map Prod.fst).Nodup := by
  simp only [FS.wf, Bool.and_eq_true, decide_eq_true_eq] at h
  exact h.1

theorem cleanScan_nodup (ig : String → Bool) (fs : FS) (rp : List String)
    (h : FS.wf fs = true) : ((cleanScan ig fs rp).map Prod.fst).Nodup := by
  cases fs with
  | dir files subs =>
    exact (wf_names_nodup files subs h).sublist
      (cleanScan_keys_sublist ig (.dir files subs) rp)

theorem mem_cleanDirs (ig : String → Bool) (subs : List (String × FS))
    (rp : List String) (dn : String) (dfs : FS)
    (hmem : (dn, dfs) ∈ subs) (hig : ig dn = false) :
    (dn, Entry.entryDict (cleanScan ig dfs (rp ++ [dn]))) ∈ cleanDirs ig subs rp := by
  induction subs with
  | nil => cases hmem
  | cons q rest ih =>
    obtain ⟨qn, qfs⟩ := q
    rcases List.mem_cons.mp hmem with hq | hmem
    · cases hq
      unfold cleanDirs
      simp only [hig, Bool.false_eq_true, if_neg, not_false_iff]
      exact List.mem_cons_self _ _
    · unfold cleanDirs
      by_cases hq : ig qn
      · simp only [hq, if_pos]
        exact ih hmem
      · simp only [hq, Bool.false_eq_true, if_neg, not_false_iff]
        exact List.mem_cons_of_mem _ (ih hmem)

theorem keys_nodup_append_entries (acc es : List (String × Entry))
    (h1 : (acc.map Prod.fst).Nodup) (h2 : (es.map Prod.fst).Nodup)
    (h3 : ∀ k ∈ es.map Prod.fst, hasKey acc k = false) :
    ((acc ++ es).map Prod.fst).Nodup := by
  rw [List.map_append, List.nodup_append]
  refine ⟨h1, h2, ?_⟩
  intro x hx hy
  have := (hasKey_eq_false_iff acc x).mp (h3 x hy)
  obtain ⟨p, hp, rfl⟩ := List.mem_map.mp hx
  exact this p hp rfl

theorem filesFold_fresh (ig : String → Bool) (rp : List String) :
    ∀ (files : List String) (acc : List (String × Entry)),
      files.Nodup → (∀ f ∈ files, hasKey acc f = false) →
      files.foldl (fun a f =>
        if ig f then a
        else insertOverwrite a f (.leaf (.pathv (rp ++ [f])))) acc =
      acc ++ (files.filter fun f => !ig f).map
        (fun f => (f, Entry.leaf (.pathv (rp ++ [f])))) := by
  intro files
  induction files with
  | nil => intro acc _ _; simp
  | cons f rest ih =>
    intro acc hnd hfresh
    rw [List.nodup_cons] at hnd
    rw [List.foldl_cons]
    by_cases hig : ig f
    · simp only [hig, if_pos]
      rw [ih acc hnd.2 fun g hg => hfresh g (List.mem_cons_of_mem _ hg)]
      simp [List.filter_cons, hig]
    · simp only [hig, Bool.false_eq_true, if_neg, not_false_iff]
      rw [insertOverwrite_of_not_hasKey _ _ _ (hfresh f (List.mem_cons_self _ _))]
      rw [ih (acc ++ [(f, Entry.leaf (Leafval.pathv (rp ++ [f])))]) hnd.2 (by
        intro g hg
        rw [hasKey_append, hfresh g (List.mem_cons_of_mem _ hg)]
        have hgf : ¬ f = g := fun h => hnd.1 (h ▸ hg)
        simp [hasKey, hgf])]
      simp [List.filter_cons, hig]

theorem filesFold_self (ig : String → Bool) (rp : List String) :
    ∀ (files : List String) (acc : List (String × Entry)),
      (acc.map Prod.fst).Nodup →
      (∀ f ∈ files, ig f = false →
        (f, Entry.leaf (.pathv (rp ++ [f]))) ∈ acc) →
      files.foldl (fun a f =>
        if ig f then a
        else insertOverwrite a f (.leaf (.pathv (rp ++ [f])))) acc = acc := by
  intro files
  induction files with
  | nil => intro acc _ _; rfl
  | cons f rest ih =>
    intro acc hnd hmem
    rw [List.foldl_cons]
    by_cases hig : ig f
    · simp only [hig, if_pos]
      exact ih acc hnd fun g hg h => hmem g (List.mem_cons_of_mem _ hg) h
    · simp only [hig, Bool.false_eq_true, if_neg, not_false_iff]
      rw [insertOverwrite_mem_self acc f _ hnd
        (hmem f (List.mem_cons_self _ _) (by simpa using hig))]
      exact ih acc hnd fun g hg h => hmem g (List.mem_cons_of_mem _ hg) h

theorem cleanDirs_cons (ig : String → Bool) (dn : String) (dfs : FS)
    (rest : List (String × FS)) (rp : List String) :
    cleanDirs ig ((dn, dfs) :: rest) rp =
      if ig dn then cleanDirs ig rest rp
      else (dn, Entry.entryDict (cleanScan ig dfs (rp ++ [dn])))
        :: cleanDirs ig rest rp := rfl

mutual

/-- `recursive_mapper` on a fresh-keyed accumulator appends exactly the
specification-side scan. -/
theorem recursiveMapper_clean (ig : String → Bool) :
    ∀ (fs : FS) (rp : List String) (acc : List (String × Entry)),
      FS.wf fs = true → (acc.map Prod.fst).Nodup →
      (∀ name ∈ namesOf fs, hasKey acc name = false) →
      recursiveMapper ig fs rp acc = acc ++ cleanScan ig fs rp
  | .dir files subs, rp, acc => fun hwf hnd hfresh => by
    have hnames := wf_names_nodup files subs hwf
    have hfnodup : files.Nodup := (List.nodup_append.mp hnames).1
    rw [show recursiveMapper ig (.dir files subs) rp acc =
      mapperDirs ig subs rp (files.foldl (fun a f =>
        if ig f then a
        else insertOverwrite a f (.leaf (.pathv (rp ++ [f])))) acc) from rfl]
    rw [filesFold_fresh ig rp files acc hfnodup
      (fun f hf => hfresh f (by simp [namesOf, hf]))]
    set fileEntries := (files.filter fun f => !ig f).map
      (fun f => (f, Entry.leaf (.pathv (rp ++ [f])))) with hfe
    have hfekeys : fileEntries.map Prod.fst = files.filter fun f => !ig f := by
      rw [hfe, List.map_map]
      rw [show (Prod.fst ∘ fun f => (f, Entry.leaf (.pathv (rp ++ [f])))) = id from rfl]
      simp
    rw [mapperDirs_clean ig subs rp (acc ++ fileEntries)
      (by simp only [FS.wf, Bool.and_eq_true] at hwf; exact hwf.2)
      ((List.nodup_append.mp hnames).2.1)
      (by
        apply keys_nodup_append_entries acc fileEntries hnd
        · rw [hfekeys]
          exact hfnodup.filter _
        · intro k hk
          rw [hfekeys] at hk
          exact hfresh k (by simp [namesOf, List.mem_filter.mp hk |>.1]))
      (by
        intro dn hdn
        rw [hasKey_append]
        rw [hfresh dn (by simp [namesOf, hdn])]
        rw [hasKey_eq_false_of_not_mem_keys fileEntries dn (by
          rw [hfekeys]
          intro hmem
          exact (List.nodup_append.mp hnames).2.2
            (List.mem_of_mem_filter hmem) hdn)]
        rfl)]
    rw [show cleanScan ig (.dir files subs) rp =
      fileEntries ++ cleanDirs ig subs rp from rfl]
    simp

/-- The subdirectory loop of `recursive_mapper` on a fresh-keyed
accumulator. -/
theorem mapperDirs_clean (ig : String → Bool) :
    ∀ (subs : List (String × FS)) (rp : List String) (acc : List (String × Entry)),
      FS.wfDirs subs = true → (subs.map Prod.fst).Nodup →
      (acc.map Prod.fst).Nodup →
      (∀ dn ∈ subs.map Prod.fst, hasKey acc dn = false) →
      mapperDirs ig subs rp acc = acc ++ cleanDirs ig subs rp
  | [], rp, acc => fun _ _ _ _ => by
    rw [show mapperDirs ig [] rp acc = acc from rfl]
    simp [cleanDirs]
  | (dn, dfs) :: rest, rp, acc => fun hwf hsnd hnd hfresh => by
    simp only [FS.wfDirs, Bool.and_eq_true] at hwf
    simp only [List.map_cons, List.nodup_cons] at hsnd
    by_cases hig : ig dn
    · rw [show mapperDirs ig ((dn, dfs) :: rest) rp acc =
        mapperDirs ig rest rp acc from by
          rw [show mapperDirs ig ((dn, dfs) :: rest) rp acc =
            if ig dn then mapperDirs ig rest rp acc
            else mapperDirs ig rest rp (insertOverwrite
              (insertOverwrite acc dn (.entryDict (recursiveMapper ig dfs (rp ++ [dn]) [])))
              dn (.entryDict (recursiveMapper ig dfs (rp ++ [dn])
                (recursiveMapper ig dfs (rp ++ [dn]) [])))) from rfl]
          rw [if_pos hig]]
      rw [mapperDirs_clean ig rest rp acc hwf.2 hsnd.2 hnd
        (fun g hg => hfresh g (List.mem_cons_of_mem _ hg))]
      rw [cleanDirs_cons, if_pos hig]
    · have hd1 : recursiveMapper ig dfs (rp ++ [dn]) [] =
          cleanScan ig dfs (rp ++ [dn]) := by
        rw [recursiveMapper_clean ig dfs (rp ++ [dn]) [] hwf.1 (by simp)
          (by intro name _; rfl)]
        rfl
      have hd2 : recursiveMapper ig dfs (rp ++ [dn]) (cleanScan ig dfs (rp ++ [dn])) =
          cleanScan ig dfs (rp ++ [dn]) :=
        recursiveMapper_self ig dfs (rp ++ [dn]) hwf.1
      have hdnfresh : hasKey acc dn = false := hfresh dn (List.mem_cons_self _ _)
      have hacc2 : insertOverwrite acc dn
          (.entryDict (cleanScan ig dfs (rp ++ [dn]))) =
          acc ++ [(dn, .entryDict (cleanScan ig dfs (rp ++ [dn])))] :=
        insertOverwrite_of_not_hasKey _ _ _ hdnfresh
      have hacc2nd : ((acc ++ [(dn, Entry.entryDict (cleanScan ig dfs (rp ++ [dn])))]).map
          Prod.fst).Nodup := by
        apply keys_nodup_append_entries _ _ hnd (by simp)
        intro k hk
        simp only [List.map_cons, List.map_nil, List.mem_singleton] at hk
        exact hk ▸ hdnfresh
      rw [show mapperDirs ig ((dn, dfs) :: rest) rp acc =
        if ig dn then mapperDirs ig rest rp acc
        else mapperDirs ig rest rp (insertOverwrite
          (insertOverwrite acc dn (.entryDict (recursiveMapper ig dfs (rp ++ [dn]) [])))
          dn (.entryDict (recursiveMapper ig dfs (rp ++ [dn])
            (recursiveMapper ig dfs (rp ++ [dn]) [])))) from rfl]
      rw [if_neg hig, hd1, hd2, hacc2]
      rw [insertOverwrite_mem_self _ dn _ hacc2nd (by simp)]
      rw [mapperDirs_clean ig rest rp _ hwf.2 hsnd.2 hacc2nd
        (by
          intro g hg
          rw [hasKey_append, hfresh g (List.mem_cons_of_mem _ hg)]
          have hgdn : ¬ dn = g := fun h => hsnd.1 (h ▸ hg)
          simp [hasKey, hgdn])]
      rw [cleanDirs_cons, if_neg hig]
      simp

/-- `recursive_mapper`'s duplicated second call over an accumulator that
already holds the clean scan is the identity. -/
theorem recursiveMapper_self (ig : String → Bool) :
    ∀ (fs : FS) (rp : List String), FS.wf fs = true →
      recursiveMapper ig fs rp (cleanScan ig fs rp) = cleanScan ig fs rp
  | .dir files subs, rp => fun hwf => by
    have hnd := cleanScan_nodup ig (.dir files subs) rp hwf
    rw [show recursiveMapper ig (.dir files subs) rp (cleanScan ig (.dir files subs) rp) =
      mapperDirs ig subs rp (files.foldl (fun a f =>
        if ig f then a
        else insertOverwrite a f (.leaf (.pathv (rp ++ [f]))))
        (cleanScan ig (.dir files subs) rp)) from rfl]
    rw [filesFold_self ig rp files _ hnd (by
      intro f hf higf
      rw [show cleanScan ig (.dir files subs) rp =
        (files.filter fun g => !ig g).map
          (fun g => (g, Entry.leaf (.pathv (rp ++ [g])))) ++ cleanDirs ig subs rp
        from rfl]
      apply List.mem_append.mpr
      left
      exact List.mem_map.mpr ⟨f, List.mem_filter.mpr ⟨hf, by simp [higf]⟩, rfl⟩)]
    exact mapperDirs_self ig subs rp _
      (by simp only [FS.wf, Bool.and_eq_true] at hwf; exact hwf.2)
      hnd
      (by
        intro dn1 dfs1 hmem higdn
        rw [show cleanScan ig (.dir files subs) rp =
          (files.filter fun g => !ig g).map
            (fun g => (g, Entry.leaf (.pathv (rp ++ [g])))) ++ cleanDirs ig subs rp
          from rfl]
        exact List.mem_append.mpr (Or.inr (mem_cleanDirs ig subs rp dn1 dfs1 hmem higdn)))

/-- The subdirectory loop is the identity when the accumulator already holds
every clean subdirectory entry. -/
theorem mapperDirs_self (ig : String → Bool) :
    ∀ (subs : List (String × FS)) (rp : List String) (acc : List (String × Entry)),
      FS.wfDirs subs = true → (acc.map Prod.fst).Nodup →
      (∀ dn dfs, (dn, dfs) ∈ subs → ig dn = false →
        (dn, Entry.entryDict (cleanScan ig dfs (rp ++ [dn]))) ∈ acc) →
      mapperDirs ig subs rp acc = acc
  | [], rp, acc => fun _ _ _ => rfl
  | (dn, dfs) :: rest, rp, acc => fun hwf hnd hmem => by
    simp only [FS.wfDirs, Bool.and_eq_true] at hwf
    rw [show mapperDirs ig ((dn, dfs) :: rest) rp acc =
      if ig dn then mapperDirs ig rest rp acc
      else mapperDirs ig rest rp (insertOverwrite
        (insertOverwrite acc dn (.entryDict (recursiveMapper ig dfs (rp ++ [dn]) [])))
        dn (.entryDict (recursiveMapper ig dfs (rp ++ [dn])
          (recursiveMapper ig dfs (rp ++ [dn]) [])))) from rfl]
    by_cases hig : ig dn
    · rw [if_pos hig]
      exact mapperDirs_self ig rest rp acc hwf.2 hnd
        (fun g gfs hg => hmem g gfs (List.mem_cons_of_mem _ hg))
    · rw [if_neg hig]
      have hd1 : recursiveMapper ig dfs (rp ++ [dn]) [] =
          cleanScan ig dfs (rp ++ [dn]) := by
        rw [recursiveMapper_clean ig dfs (rp ++ [dn]) [] hwf.1 (by simp)
          (by intro name _; rfl)]
        rfl
      have hd2 : recursiveMapper ig dfs (rp ++ [dn]) (cleanScan ig dfs (rp ++ [dn])) =
          cleanScan ig dfs (rp ++ [dn]) :=
        recursiveMapper_self ig dfs (rp ++ [dn]) hwf.1
      have hin : (dn, Entry.entryDict (cleanScan ig dfs (rp ++ [dn]))) ∈ acc :=
        hmem dn dfs (List.mem_cons_self _ _) (by simpa using hig)
      rw [hd1, hd2]
      rw [insertOverwrite_mem_self acc dn _ hnd hin]
      rw [insertOverwrite_mem_self acc dn _ hnd hin]
      exact mapperDirs_self ig rest rp acc hwf.2 hnd
        (fun g gfs hg => hmem g gfs (List.mem_cons_of_mem _ hg))

end

/-- claim C8: on every well-formed directory tree (no name collisions), the
scanner — including its duplicated recursive call per subdirectory — returns
exactly the specification-side scan: one `Leaf` holding the file's path per
non-ignored file, then one recursively scanned `MapNode` per non-ignored
subdirectory, with basenames fully matching the ignore pattern skipped at
every level (`cleanScan`). -/
theorem c8_scanner_refinement (ig : String → Bool) (fs : FS) (rp : List String)
    (hwf : FS.wf fs = true) :
    recursiveMapper ig fs rp [] = cleanScan ig fs rp := by
  rw [recursiveMapper_clean ig fs rp [] hwf (by simp) (by intro n _; rfl)]
  rfl

/-- Witness for `c8_scanner_refinement`: a directory with one file, one
dunder-ignored file, one subdirectory and one ignored subdirectory. -/
theorem c8_scanner_refinement_witness :
    recursiveMapper (fun s => s = "__pycache__" || s = "__skip__")
        (.dir ["a.txt", "__pycache__"] [("sub", .dir ["b.txt"] []), ("__skip__", .dir [] [])])
        ["res"] [] =
      cleanScan (fun s => s = "__pycache__" || s = "__skip__")
        (.dir ["a.txt", "__pycache__"] [("sub", .dir ["b.txt"] []), ("__skip__", .dir [] [])])
        ["res"] ∧
    cleanScan (fun s => s = "__pycache__" || s = "__skip__")
        (.dir ["a.txt", "__pycache__"] [("sub", .dir ["b.txt"] []), ("__skip__", .dir [] [])])
        ["res"] =
      [("a.txt", .leaf (.pathv ["res", "a.txt"])),
        ("sub", .entryDict [("b.txt", .leaf (.pathv ["res", "sub", "b.txt"]))])] :=
  ⟨c8_scanner_refinement (fun s => s = "__pycache__" || s = "__skip__")
      (.dir ["a.txt", "__pycache__"] [("sub", .dir ["b.txt"] []), ("__skip__", .dir [] [])])
      ["res"] (by decide),
    rfl⟩

/-! ## Claim C1: fingerprint sensitivity -/

theorem string_toList_injective (s t : String) (h : s.toList = t.toList) : s = t := by
  cases s with
  | mk d1 =>
    cases t with
    | mk d2 =>
      simp only [String.toList] at h
      rw [h]

theorem string_toList_ne (s t : String) (h : s ≠ t) : s.toList ≠ t.toList :=
  fun he => h (string_toList_injective s t he)

theorem string_toList_length_pos (s : String) (h : s ≠ "") :
    0 < s.toList.length := by
  cases hs : s.toList with
  | nil =>
    exfalso
    apply h
    apply string_toList_injective
    rw [hs]
    rfl
  | cons c cs => simp

/-- Middle-segment cancellation for the MD5 input stream, one leading
context. -/
theorem mid_segment_ne (A B s t : List Char) (h : s ≠ t) :
    A ++ (s ++ B) ≠ A ++ (t ++ B) := by
  intro he
  exact h (List.append_cancel_right (List.append_cancel_left he))

/-- Middle-segment cancellation, two leading contexts. -/
theorem mid_segment_ne2 (A B C s t : List Char) (h : s ≠ t) :
    A ++ (B ++ (s ++ C)) ≠ A ++ (B ++ (t ++ C)) := by
  intro he
  exact h (List.append_cancel_right
    (List.append_cancel_left (List.append_cancel_left he)))

theorem hashPairs_append (a b : List (String × Entry)) :
    hashPairs (a ++ b) = hashPairs a ++ hashPairs b := by
  induction a with
  | nil => rfl
  | cons p rest ih =>
    obtain ⟨k, v⟩ := p
    simp only [List.cons_append, hashPairs, List.append_eq]
    rw [ih, List.append_assoc]

theorem hashElems_append (a b : List Entry) :
    hashElems (a ++ b) = hashElems a ++ hashElems b := by
  induction a with
  | nil => rfl
  | cons v rest ih =>
    simp only [List.cons_append, hashElems, List.append_eq]
    rw [ih, List.append_assoc]

/-- The MD5 input of a dict node: all key characters, then all value
streams. -/
theorem md5Input_dict (es : List (String × Entry)) :
    md5Input (.entryDict es) =
      (es.map Prod.fst).flatMap String.toList ++
        (hashPairs es).flatMap String.toList := by
  unfold md5Input
  rw [show consistentHashables (.entryDict es) =
    es.map Prod.fst ++ hashPairs es from rfl]
  rw [List.flatMap_append]

theorem md5Input_list (es : List Entry) :
    md5Input (.entryList es) = (hashElems es).flatMap String.toList := by
  unfold md5Input
  rw [show consistentHashables (.entryList es) = hashElems es from rfl]

theorem md5Input_renamed (t t1 : Entry) (h : RenamedKey t t1) :
    md5Input t ≠ md5Input t1 := by
  induction h with
  | here ps qs k k1 v hne =>
    rw [md5Input_dict, md5Input_dict]
    rw [hashPairs_append, hashPairs_append]
    simp only [List.map_append, List.map_cons, List.flatMap_append,
      List.flatMap_cons, hashPairs, List.append_assoc]
    exact mid_segment_ne _ _ _ _ (string_toList_ne k k1 hne)
  | inDict ps qs k u u1 hr ih =>
    rw [md5Input_dict, md5Input_dict]
    rw [hashPairs_append, hashPairs_append]
    simp only [List.map_append, List.map_cons, List.flatMap_append,
      List.flatMap_cons, hashPairs, List.append_assoc]
    rw [show (consistentHashables u).flatMap String.toList = md5Input u from rfl,
      show (consistentHashables u1).flatMap String.toList = md5Input u1 from rfl]
    intro he
    apply ih
    have h1 := List.append_cancel_left he
    have h2 := List.append_cancel_left h1
    have h3 := List.append_cancel_left h2
    have h4 := List.append_cancel_left h3
    exact List.append_cancel_right h4
  | inList ps qs u u1 hr ih =>
    rw [md5Input_list, md5Input_list]
    rw [hashElems_append, hashElems_append]
    simp only [List.flatMap_append, List.flatMap_cons, hashElems, List.append_assoc]
    rw [show (consistentHashables u).flatMap String.toList = md5Input u from rfl,
      show (consistentHashables u1).flatMap String.toList = md5Input u1 from rfl]
    intro he
    apply ih
    exact List.append_cancel_right (List.append_cancel_left he)

theorem md5Input_inserted_length (t t1 : Entry) (h : InsertedFile t t1) :
    (md5Input t).length < (md5Input t1).length := by
  induction h with
  | here ps qs k parts hk =>
    rw [md5Input_dict, md5Input_dict]
    rw [hashPairs_append, hashPairs_append]
    simp only [List.map_append, List.map_cons, List.flatMap_append,
      List.flatMap_cons, hashPairs, List.length_append]
    rw [show consistentHashables (.leaf (.pathv parts)) = parts from rfl]
    have := string_toList_length_pos k hk
    omega
  | inDict ps qs k u u1 hr ih =>
    rw [md5Input_dict, md5Input_dict]
    rw [hashPairs_append, hashPairs_append]
    simp only [List.map_append, List.map_cons, List.flatMap_append,
      List.flatMap_cons, hashPairs, List.length_append]
    rw [show (consistentHashables u).flatMap String.toList = md5Input u from rfl,
      show (consistentHashables u1).flatMap String.toList = md5Input u1 from rfl]
    omega
  | inList ps qs u u1 hr ih =>
    rw [md5Input_list, md5Input_list]
    rw [hashElems_append, hashElems_append]
    simp only [List.flatMap_append, List.flatMap_cons, hashElems, List.length_append]
    rw [show (consistentHashables u).flatMap String.toList = md5Input u from rfl,
      show (consistentHashables u1).flatMap String.toList = md5Input u1 from rfl]
    omega

theorem rmRun_checksum_independent (mws : List RuleE) (L1 L2 : List Loader)
    (fuel : Nat) (t : Entry) (o1 o2 : RunOut)
    (h1 : rmRun mws L1 fuel t = .ok o1) (h2 : rmRun mws L2 fuel t = .ok o2) :
    o1.checksum = o2.checksum := by
  unfold rmRun at h1 h2
  cases happ : applyMiddlewares fuel mws t with
  | error e => rw [happ] at h1; cases h1
  | ok t1 =>
    rw [happ] at h1 h2
    cases hnorm : middlewareE toPythonPropertyNameRule fuel t1 with
    | error e => simp only [hnorm] at h1; cases h1
    | ok p =>
      obtain ⟨t2, lgs⟩ := p
      simp only [hnorm] at h1 h2
      cases t2 with
      | entryDict es =>
        cases hl1 : loadTree L1 (.entryDict es) "root" with
        | error e => simp only [hl1] at h1; cases h1
        | ok q1 =>
          cases hl2 : loadTree L2 (.entryDict es) "root" with
          | error e => simp only [hl2] at h2; cases h2
          | ok q2 =>
            obtain ⟨r1, lg1⟩ := q1
            obtain ⟨r2, lg2⟩ := q2
            simp only [hl1] at h1
            simp only [hl2] at h2
            cases h1
            cases h2
            rfl
      | entryList es => simp only at h1; cases h1
      | leaf v => simp only at h1; cases h1
      | pynone => simp only at h1; cases h1

/-- claim C1 (amended): the fingerprint is computed on the
post-normalization, *pre-load* tree, so it is entirely independent of the
loader registration (first conjunct); it does change under renaming any key
post-normalization (second conjunct) and under adding/removing any file
(third conjunct, by strict growth of the hashed byte stream). -/
theorem c1_fingerprint_sensitivity :
    (∀ (mws : List RuleE) (L1 L2 : List Loader) (fuel : Nat) (t : Entry)
      (o1 o2 : RunOut), rmRun mws L1 fuel t = .ok o1 →
      rmRun mws L2 fuel t = .ok o2 → o1.checksum = o2.checksum) ∧
    (∀ t t1 : Entry, RenamedKey t t1 → md5Input t ≠ md5Input t1) ∧
    (∀ t t1 : Entry, InsertedFile t t1 → md5Input t ≠ md5Input t1) :=
  ⟨rmRun_checksum_independent, md5Input_renamed, fun t t1 h hne =>
    absurd (congrArg List.length hne)
      (Nat.ne_of_lt (md5Input_inserted_length t t1 h))⟩

/-- A loader producing a `str`-typed value for any leaf. -/
def ldStr : Loader := fun _ => (.ok (some (.obj "str")), [])

/-- A loader producing a `dict`-typed value for any leaf. -/
def ldDict : Loader := fun _ => (.ok (some (.obj "dict")), [])

/-- A one-file tree as produced by the scanner. -/
def exC1 : Entry := .entryDict [("a", .leaf (.pathv ["res", "a.txt"]))]

/-- Witness for `c1_fingerprint_sensitivity`: two concrete runs with the
loaders swapped share the checksum; a concrete rename and a concrete file
insertion each change the MD5 input. -/
theorem c1_fingerprint_sensitivity_witness :
    (RunOut.mk ['a', 'r', 'e', 's', 'a', '.', 't', 'x', 't']
        (.entryDict [("a", .leaf (.obj "str"))])).checksum =
      (RunOut.mk ['a', 'r', 'e', 's', 'a', '.', 't', 'x', 't']
        (.entryDict [("a", .leaf (.obj "dict"))])).checksum ∧
    md5Input (.entryDict [("a", .leaf (.obj "x"))]) ≠
      md5Input (.entryDict [("b", .leaf (.obj "x"))]) ∧
    md5Input (.entryDict []) ≠
      md5Input (.entryDict [("f", .leaf (.pathv ["p"]))]) :=
  ⟨c1_fingerprint_sensitivity.1 [] [ldStr, ldDict] [ldDict, ldStr] 2 exC1 _ _ rfl rfl,
    c1_fingerprint_sensitivity.2.1 _ _
      (RenamedKey.here [] [] "a" "b" (.leaf (.obj "x")) (by decide)),
    c1_fingerprint_sensitivity.2.2 _ _
      (InsertedFile.here [] [] "f" ["p"] (by decide))⟩

/-- counterexample to claim C1: swapping the two loaders changes the
resolved type of the only leaf (`str` vs `dict`) but not the fingerprint —
the checksum is computed from the pre-load tree, before any loader runs. -/
theorem c1_counterexample :
    rmRun [] [ldStr, ldDict] 2 exC1 =
      .ok ⟨['a', 'r', 'e', 's', 'a', '.', 't', 'x', 't'],
        .entryDict [("a", .leaf (.obj "str"))]⟩ ∧
    rmRun [] [ldDict, ldStr] 2 exC1 =
      .ok ⟨['a', 'r', 'e', 's', 'a', '.', 't', 'x', 't'],
        .entryDict [("a", .leaf (.obj "dict"))]⟩ ∧
    Entry.leaf (.obj "str") ≠ Entry.leaf (.obj "dict") :=
  ⟨rfl, rfl, by simp⟩
